import Mathlib

/-!
Verification of the call-coordination and preview-caching layer of the
Proyecto_Canvas web application.

Each section shallowly embeds one part of the TypeScript source:

* `src/components/CanvasLayoutPanel.tsx` — range clamping and numeric-field parsing;
* `src/App.tsx` (`handleSetTemplate`) — the initial canvas request synthesized per layout kind;
* `src/App.tsx` (`stableStringify`) — the canonical settings fingerprint;
* `src/App.tsx` (`cachePreviewUrl` / `getCachedPreviewUrl` / `handleRenderPreview`) — the
  bounded LRU preview cache and blob-URL lifetime management;
* the worker client (`PyWorkerClient`) — the pending-call registry with timeouts and the
  latest-call (generation counter) coordinator;
* `src/hooks/useSliderCommit.ts` — the fast/final slider debouncer;
* the worker handlers (`normalizeRelativePath` and `userlib.ingest`).

Machine integers are modelled as `Nat`/`Int`, JS numbers that may be non-finite as an
explicit sum type, and stateful code as explicit state-passing step functions over the
events that can reach it.
-/

/-! ### Canvas ranges and clamping (`src/components/CanvasLayoutPanel.tsx`) -/

/-- `CanvasRange` from `CanvasLayoutPanel.tsx`: `{ min, max, default }`. -/
structure CanvasRange where
  min : Int
  max : Int
  default : Int
deriving DecidableEq, Repr

/-- A JavaScript number as it reaches `clampToRange`: either a finite value or one of
the non-finite values (`NaN`, `±Infinity`) rejected by `Number.isFinite`. -/
inductive JsNum where
  | finite (q : ℚ)
  | nan
  | posInf
  | negInf
deriving DecidableEq

/-- `clampToRange` from `CanvasLayoutPanel.tsx`: non-finite values fall back to the
range's default; finite values are floored (`Math.floor`) and clamped into
`[range.min, range.max]`. -/
def clampToRange (value : JsNum) (range : CanvasRange) : Int :=
  match value with
  | .nan | .posInf | .negInf => range.default
  | .finite q => max range.min (min range.max ⌊q⌋)

/-- The numeric value of a digit string, as `Number.parseInt(value, 10)` computes it. -/
def digitsToNat (cs : List Char) : Nat :=
  cs.foldl (fun acc c => acc * 10 + (c.toNat - Char.toNat '0')) 0

/-- `parseInteger` from `CanvasLayoutPanel.tsx`: accepts exactly the strings matching
`^\d+$` (nonempty, all decimal digits) and returns their base-10 value, `null`
otherwise. -/
def parseInteger (value : String) : Option Int :=
  if value.data ≠ [] ∧ value.data.all Char.isDigit then some (digitsToNat value.data)
  else none

/-- `isInRange` from `CanvasLayoutPanel.tsx`. -/
def isInRange (value : Int) (range : CanvasRange) : Bool :=
  range.min ≤ value && value ≤ range.max

/-- The value the rows field's `onBlur` handler forwards through `onChange`
(`CanvasLayoutPanel.tsx`): an unparsable text keeps the current clamped value,
otherwise the parsed number is clamped into the declared range. -/
def rowsBlurValue (rows : CanvasRange) (currentRows : Int) (text : String) : Int :=
  match parseInteger text with
  | none => currentRows
  | some parsed => clampToRange (.finite (parsed : ℚ)) rows

/-- C8: for every canvas range and numeric field edit, the forwarded value is clamped
into the declared range: with range `{min := 1, max := 8, default := 2}` a request of
`rows = 99` forwards `8` and `rows = 0` forwards `1`; a non-finite input clamps to the
range's default. -/
theorem c8_clamp_forwarded (range : CanvasRange) (q : ℚ)
    (hle : range.min ≤ range.max) :
    (range.min ≤ clampToRange (.finite q) range ∧ clampToRange (.finite q) range ≤ range.max) ∧
    (rowsBlurValue ⟨1, 8, 2⟩ 2 "99" = 8 ∧ rowsBlurValue ⟨1, 8, 2⟩ 2 "0" = 1) ∧
    (∀ v : JsNum, v ≠ .finite q → (∀ r : ℚ, v ≠ .finite r) →
      clampToRange v range = range.default) := by
  refine ⟨⟨?_, ?_⟩, ⟨?_, ?_⟩, ?_⟩
  · simp only [clampToRange]
    exact le_max_left _ _
  · simp only [clampToRange]
    exact max_le hle (min_le_left _ _)
  · have h : parseInteger "99" = some 99 := by decide
    simp only [rowsBlurValue, h, clampToRange, Int.floor_intCast]
    decide
  · have h : parseInteger "0" = some 0 := by decide
    simp only [rowsBlurValue, h, clampToRange, Int.floor_intCast]
    decide
  · intro v _ hnf
    cases v with
    | finite r => exact absurd rfl (hnf r)
    | nan => rfl
    | posInf => rfl
    | negInf => rfl

/-- Witness for `c8_clamp_forwarded` at the range `{1, 8, 2}` and the finite input `5`. -/
theorem c8_clamp_forwarded_witness :
    (1 : Int) ≤ 8 ∧
    ((1 : Int) ≤ clampToRange (.finite 5) ⟨1, 8, 2⟩ ∧ clampToRange (.finite 5) ⟨1, 8, 2⟩ ≤ 8) :=
  ⟨by decide, (c8_clamp_forwarded ⟨1, 8, 2⟩ 5 (by decide)).1⟩

/-! ### Canvas layout resolution (`src/App.tsx`, `handleSetTemplate`) -/

/-- `CanvasLayoutInfo` from `CanvasLayoutPanel.tsx`: the tagged union of layout kinds
returned by `pc.setTemplate`. -/
inductive CanvasLayoutInfo where
  | fixed
  | multiCanvas (rows cols : CanvasRange)
  | dynamic (rowsY blocksX : CanvasRange)
deriving DecidableEq

/-- `CanvasRequest` from `CanvasLayoutPanel.tsx`: partial `{rows, cols}` or
`{rows_y, blocks_x}`. -/
structure CanvasRequest where
  rows : Option Int := none
  cols : Option Int := none
  rowsY : Option Int := none
  blocksX : Option Int := none
deriving DecidableEq

/-- The `initialCanvasRequest` computed in `handleSetTemplate` (`App.tsx`): `null` for a
`fixed` layout, each range's default otherwise. -/
def initialCanvasRequest : CanvasLayoutInfo → Option CanvasRequest
  | .fixed => none
  | .multiCanvas rows cols =>
      some { rows := some rows.default, cols := some cols.default }
  | .dynamic rowsY blocksX =>
      some { rowsY := some rowsY.default, blocksX := some blocksX.default }

/-- The `pc.setCanvasRequest` calls issued by `handleSetTemplate` upon layout arrival:
one call carrying `initialCanvasRequest` when it is non-null, none otherwise. -/
def sentCanvasRequests (layout : CanvasLayoutInfo) : List CanvasRequest :=
  match initialCanvasRequest layout with
  | none => []
  | some request => [request]

/-- `CanvasLayoutPanel` renders no controls (`return null`) for a missing or `fixed`
layout. -/
def panelVisible : Option CanvasLayoutInfo → Bool
  | none => false
  | some .fixed => false
  | some (.multiCanvas _ _) => true
  | some (.dynamic _ _) => true

/-- C9: a `fixed` layout sends no canvas request (and the layout panel is inert); a
`multi_canvas` (or `dynamic`) layout sends exactly one request whose fields are the
declared ranges' defaults. -/
theorem c9_initial_canvas_request :
    (sentCanvasRequests .fixed = [] ∧ panelVisible (some .fixed) = false) ∧
    (∀ rows cols : CanvasRange,
      sentCanvasRequests (.multiCanvas rows cols) =
        [{ rows := some rows.default, cols := some cols.default }]) ∧
    (∀ rowsY blocksX : CanvasRange,
      sentCanvasRequests (.dynamic rowsY blocksX) =
        [{ rowsY := some rowsY.default, blocksX := some blocksX.default }]) :=
  ⟨⟨rfl, rfl⟩, fun _ _ => rfl, fun _ _ => rfl⟩

/-! ### Settings fingerprint (`src/App.tsx`, `stableStringify` / `previewDepsHash`) -/

/-- A JSON-like JavaScript value as passed to `stableStringify` (`App.tsx`); numbers
are modelled as integers and object entries are kept in insertion order.
`previewDepsHash` is `stableStringify` applied to the settings object. -/
inductive JVal where
  | null
  | bool (b : Bool)
  | num (n : Int)
  | str (s : String)
  | arr (items : List JVal)
  | obj (entries : List (String × JVal))

/-- `JSON.stringify` escaping of one character (quote, backslash and the common
control characters). -/
def jsonEscapeChar (c : Char) : String :=
  if c = Char.ofNat 34 then "\\\""
  else if c = '\\' then "\\\\"
  else if c = '\n' then "\\n"
  else if c = '\r' then "\\r"
  else if c = '\t' then "\\t"
  else String.singleton c

/-- `JSON.stringify` of a string: the escaped characters wrapped in quotes. -/
def jsonQuote (s : String) : String :=
  "\"" ++ String.join (s.data.map jsonEscapeChar) ++ "\""

/-- The comparator `(left, right) => left.localeCompare(right)` used to sort object
entries in `stableStringify`, modelled as the linear order on the keys. -/
def keyLE {α : Type} (p q : String × α) : Prop := p.1 ≤ q.1

/-- Strict version of `keyLE`, used to show that a sorted list of entries with
pairwise-distinct keys is unique in its permutation class. -/
def keyLT {α : Type} (p q : String × α) : Prop := p.1 < q.1

instance {α : Type} : DecidableRel (@keyLE α) :=
  fun p q => inferInstanceAs (Decidable (p.1 ≤ q.1))

instance {α : Type} : IsTotal (String × α) keyLE :=
  ⟨fun p q => le_total p.1 q.1⟩

instance {α : Type} : IsTrans (String × α) keyLE :=
  ⟨fun _ _ _ h h2 => le_trans h h2⟩

instance {α : Type} : IsAntisymm (String × α) keyLT :=
  ⟨fun _ _ h h2 => absurd h2 (lt_asymm h)⟩

/-- `stableStringify` from `App.tsx`: primitives via `JSON.stringify`, arrays
elementwise, objects with entries sorted by key before serialization. -/
def stableStringify : JVal → String
  | .null => "null"
  | .bool b => if b then "true" else "false"
  | .num n => toString n
  | .str s => jsonQuote s
  | .arr items =>
      "[" ++ String.intercalate "," (items.attach.map fun x => stableStringify x.val) ++ "]"
  | .obj entries =>
      "\x7b" ++
        String.intercalate ","
          ((List.insertionSort keyLE entries).attach.map
            fun p => jsonQuote p.val.1 ++ ":" ++ stableStringify p.val.2) ++
      "\x7d"
termination_by v => sizeOf v
decreasing_by
  · have h := List.sizeOf_lt_of_mem x.2
    simp only [JVal.arr.sizeOf_spec]
    omega
  · have hmem : p.val ∈ entries := (List.perm_insertionSort keyLE entries).subset p.2
    have h := List.sizeOf_lt_of_mem hmem
    have h2 : sizeOf p.val.2 < sizeOf p.val := by
      rcases p.val with ⟨k, v⟩
      simp only [Prod.mk.sizeOf_spec]
      omega
    simp only [JVal.obj.sizeOf_spec]
    omega

/-- Unfolding of `stableStringify` on arrays. -/
theorem stableStringify_arr (items : List JVal) :
    stableStringify (.arr items) =
      "[" ++ String.intercalate "," (items.map stableStringify) ++ "]" := by
  rw [stableStringify]
  rw [List.attach_map_val]

/-- Unfolding of `stableStringify` on objects. -/
theorem stableStringify_obj (entries : List (String × JVal)) :
    stableStringify (.obj entries) =
      "\x7b" ++
        String.intercalate ","
          ((List.insertionSort keyLE entries).map
            fun p => jsonQuote p.1 ++ ":" ++ stableStringify p.2) ++
      "\x7d" := by
  rw [stableStringify]
  rw [List.attach_map_val (List.insertionSort keyLE entries)
    (fun p => jsonQuote p.1 ++ ":" ++ stableStringify p.2)]

/-!
Semantic equality of JSON-like values: equal primitives, elementwise-equal arrays, and
objects whose entry lists agree up to key permutation with recursively equal values
(JavaScript object keys are pairwise distinct, matching the `Nodup` side condition).
`SEq v w` holds exactly when `v` and `w` denote the same key→value mappings with any
key insertion order.
-/

mutual
inductive SEq : JVal → JVal → Prop where
  | null : SEq .null .null
  | bool (b : Bool) : SEq (.bool b) (.bool b)
  | num (n : Int) : SEq (.num n) (.num n)
  | str (s : String) : SEq (.str s) (.str s)
  | arr {xs ys : List JVal} : SEqList xs ys → SEq (.arr xs) (.arr ys)
  | obj {es ms fs : List (String × JVal)} :
      (es.map Prod.fst).Nodup →
      SEqEntries es ms →
      ms.Perm fs →
      SEq (.obj es) (.obj fs)

inductive SEqList : List JVal → List JVal → Prop where
  | nil : SEqList [] []
  | cons {v w : JVal} {vs ws : List JVal} :
      SEq v w → SEqList vs ws → SEqList (v :: vs) (w :: ws)

inductive SEqEntries : List (String × JVal) → List (String × JVal) → Prop where
  | nil : SEqEntries [] []
  | cons {p q : String × JVal} {ps qs : List (String × JVal)} :
      p.1 = q.1 → SEq p.2 q.2 → SEqEntries ps qs → SEqEntries (p :: ps) (q :: qs)
end

/-- Elementwise stringification is preserved along `SEqList`, given the inductive
hypothesis for the elements. -/
theorem seqList_map_eq : ∀ {xs ys : List JVal}, SEqList xs ys →
    (∀ v ∈ xs, ∀ w, SEq v w → stableStringify v = stableStringify w) →
    xs.map stableStringify = ys.map stableStringify := by
  intro xs
  induction xs with
  | nil => intro ys h _; cases h; rfl
  | cons v vs ihr =>
    intro ys h ih
    cases h with
    | @cons _ w _ ws hvw ht =>
      have h1 : stableStringify v = stableStringify w := ih v (List.mem_cons_self v vs) w hvw
      have h2 := ihr ht (fun r hr w' hw' => ih r (List.mem_cons_of_mem v hr) w' hw')
      simp [h1, h2]

/-- Mapping each entry to its key paired with its stringified value is preserved along
`SEqEntries`, given the inductive hypothesis for the entry values. -/
theorem seqEntries_map_eq : ∀ {es ms : List (String × JVal)}, SEqEntries es ms →
    (∀ p ∈ es, ∀ w, SEq p.2 w → stableStringify p.2 = stableStringify w) →
    es.map (fun p => (p.1, stableStringify p.2)) =
      ms.map (fun p => (p.1, stableStringify p.2)) := by
  intro es
  induction es with
  | nil => intro ms h _; cases h; rfl
  | cons p ps ihr =>
    intro ms h ih
    cases h with
    | @cons _ q _ qs hk hv ht =>
      have h1 : stableStringify p.2 = stableStringify q.2 :=
        ih p (List.mem_cons_self p ps) q.2 hv
      have h2 := ihr ht (fun r hr w' hw' => ih r (List.mem_cons_of_mem p hr) w' hw')
      simp [h1, h2, hk]

/-- `List.orderedInsert` by key commutes with mapping values, since the comparator
reads only keys. -/
theorem orderedInsert_map_pair (F : JVal → String) (p : String × JVal) :
    ∀ l : List (String × JVal),
      (List.orderedInsert keyLE p l).map (fun q => (q.1, F q.2)) =
        List.orderedInsert keyLE (p.1, F p.2) (l.map fun q => (q.1, F q.2)) := by
  intro l
  induction l with
  | nil => rfl
  | cons q qs ih =>
    by_cases h : keyLE p q
    · simp only [List.orderedInsert, List.map]
      rw [if_pos h, if_pos (show keyLE (p.1, F p.2) (q.1, F q.2) from h)]
      rfl
    · simp only [List.orderedInsert, List.map]
      rw [if_neg h, if_neg (show ¬keyLE (p.1, F p.2) (q.1, F q.2) from h)]
      simp only [List.map]
      rw [ih]

/-- `List.insertionSort` by key commutes with mapping values. -/
theorem insertionSort_map_pair (F : JVal → String) :
    ∀ es : List (String × JVal),
      (List.insertionSort keyLE es).map (fun q => (q.1, F q.2)) =
        List.insertionSort keyLE (es.map fun q => (q.1, F q.2)) := by
  intro es
  induction es with
  | nil => rfl
  | cons p ps ih =>
    simp only [List.insertionSort, List.map]
    rw [orderedInsert_map_pair, ih]

/-- A list of entries sorted by `keyLE` whose keys are pairwise distinct is sorted by
the strict order `keyLT`. -/
theorem sorted_keyLT_of_nodup {α : Type} {ps : List (String × α)}
    (hs : List.Sorted keyLE ps) (hn : (ps.map Prod.fst).Nodup) :
    List.Sorted keyLT ps := by
  have h2 : List.Pairwise (fun a b : String × α => a.1 ≠ b.1) ps := List.pairwise_map.mp hn
  exact (hs.and h2).imp fun h => lt_of_le_of_ne h.1 h.2

/-- Key lists are preserved along `seqEntries_map_eq`-style maps. -/
theorem map_fst_map_pair (F : JVal → String) (es : List (String × JVal)) :
    (es.map fun q => (q.1, F q.2)).map Prod.fst = es.map Prod.fst := by
  induction es with
  | nil => rfl
  | cons p ps ih => simp [ih]

/-- Main induction (on value size) for claim C3. -/
theorem stableStringify_seq_aux :
    ∀ n : Nat, ∀ v w : JVal, sizeOf v ≤ n → SEq v w →
      stableStringify v = stableStringify w := by
  intro n
  induction n with
  | zero =>
    intro v w hv _
    exact absurd hv (by cases v <;> simp)
  | succ n ih =>
    intro v w hv hseq
    cases hseq with
    | null => rfl
    | bool b => rfl
    | num m => rfl
    | str s => rfl
    | @arr xs ys hl =>
      rw [stableStringify_arr, stableStringify_arr]
      have hsz : ∀ x ∈ xs, sizeOf x ≤ n := by
        intro x hx
        have h := List.sizeOf_lt_of_mem hx
        simp only [JVal.arr.sizeOf_spec] at hv
        omega
      rw [seqList_map_eq hl (fun x hx w' hw' => ih x w' (hsz x hx) hw')]
    | @obj es ms fs hn hf hperm =>
      rw [stableStringify_obj, stableStringify_obj]
      have hsz : ∀ p ∈ es, sizeOf p.2 ≤ n := by
        intro p hp
        have h := List.sizeOf_lt_of_mem hp
        have h2 : sizeOf p.2 < sizeOf p := by
          rcases p with ⟨k, u⟩
          simp only [Prod.mk.sizeOf_spec]
          omega
        simp only [JVal.obj.sizeOf_spec] at hv
        omega
      have hge : es.map (fun p => (p.1, stableStringify p.2)) =
          ms.map (fun p => (p.1, stableStringify p.2)) :=
        seqEntries_map_eq hf (fun p hp w' hw' => ih p.2 w' (hsz p hp) hw')
      have hperm2 : (es.map fun p => (p.1, stableStringify p.2)).Perm
          (fs.map fun p => (p.1, stableStringify p.2)) := by
        rw [hge]
        exact hperm.map _
      have hnod1 : ((es.map fun p => (p.1, stableStringify p.2)).map Prod.fst).Nodup := by
        rw [map_fst_map_pair]
        exact hn
      have hnod2 : ((fs.map fun p => (p.1, stableStringify p.2)).map Prod.fst).Nodup :=
        (hperm2.map Prod.fst).nodup_iff.mp hnod1
      have hs1 : List.Sorted keyLT
          (List.insertionSort keyLE (es.map fun p => (p.1, stableStringify p.2))) := by
        apply sorted_keyLT_of_nodup (List.sorted_insertionSort keyLE _)
        exact ((List.perm_insertionSort keyLE _).map Prod.fst).nodup_iff.mpr hnod1
      have hs2 : List.Sorted keyLT
          (List.insertionSort keyLE (fs.map fun p => (p.1, stableStringify p.2))) := by
        apply sorted_keyLT_of_nodup (List.sorted_insertionSort keyLE _)
        exact ((List.perm_insertionSort keyLE _).map Prod.fst).nodup_iff.mpr hnod2
      have hsort : List.insertionSort keyLE (es.map fun p => (p.1, stableStringify p.2)) =
          List.insertionSort keyLE (fs.map fun p => (p.1, stableStringify p.2)) := by
        apply List.eq_of_perm_of_sorted _ hs1 hs2
        exact ((List.perm_insertionSort keyLE _).trans hperm2).trans
          (List.perm_insertionSort keyLE _).symm
      have hmaps : (List.insertionSort keyLE es).map
            (fun p => jsonQuote p.1 ++ ":" ++ stableStringify p.2) =
          (List.insertionSort keyLE fs).map
            (fun p => jsonQuote p.1 ++ ":" ++ stableStringify p.2) := by
        have hfact : ∀ gs : List (String × JVal),
            (List.insertionSort keyLE gs).map
              (fun p => jsonQuote p.1 ++ ":" ++ stableStringify p.2) =
            (List.insertionSort keyLE (gs.map fun p => (p.1, stableStringify p.2))).map
              (fun q => jsonQuote q.1 ++ ":" ++ q.2) := by
          intro gs
          rw [← insertionSort_map_pair]
          rw [List.map_map]
          rfl
        rw [hfact, hfact, hsort]
      rw [hmaps]

/-- C3: the settings fingerprint is order-independent — semantically equal values
(same key→value mappings, any key insertion order, recursively) stringify to
byte-identical strings. -/
theorem c3_fingerprint_order_independent (v w : JVal) (h : SEq v w) :
    stableStringify v = stableStringify w :=
  stableStringify_seq_aux (sizeOf v) v w le_rfl h

/-- Witness for `c3_fingerprint_order_independent`:
`fingerprint({a:1,b:2}) = fingerprint({b:2,a:1})`. -/
theorem c3_fingerprint_order_independent_witness :
    SEq (.obj [("a", .num 1), ("b", .num 2)]) (.obj [("b", .num 2), ("a", .num 1)]) ∧
    stableStringify (.obj [("a", .num 1), ("b", .num 2)]) =
      stableStringify (.obj [("b", .num 2), ("a", .num 1)]) := by
  have he : SEqEntries [("a", JVal.num 1), ("b", JVal.num 2)]
      [("a", JVal.num 1), ("b", JVal.num 2)] :=
    SEqEntries.cons rfl (SEq.num 1) (SEqEntries.cons rfl (SEq.num 2) SEqEntries.nil)
  have hp : List.Perm [("a", JVal.num 1), ("b", JVal.num 2)]
      [("b", JVal.num 2), ("a", JVal.num 1)] :=
    List.Perm.swap ("b", JVal.num 2) ("a", JVal.num 1) []
  have hs : SEq (.obj [("a", .num 1), ("b", .num 2)]) (.obj [("b", .num 2), ("a", .num 1)]) :=
    SEq.obj (by decide) he hp
  exact ⟨hs, c3_fingerprint_order_independent _ _ hs⟩

/-! ### Preview cache and blob-URL lifetime (`src/App.tsx`) -/

/-- `PREVIEW_CACHE_LIMIT` from `App.tsx`. -/
def PREVIEW_CACHE_LIMIT : Nat := 30

/-- `Map.get` on a JavaScript `Map<string, string>` modelled as its entry list in
insertion order (oldest first). -/
def lookupKey : List (String × String) → String → Option String
  | [], _ => none
  | p :: ps, k => if p.1 = k then some p.2 else lookupKey ps k

/-- `Map.delete`: removes the entry with the given key (a `Map` holds at most one). -/
def eraseKey : List (String × String) → String → List (String × String)
  | [], _ => []
  | p :: ps, k => if p.1 = k then ps else p :: eraseKey ps k

/-- `Array.from(cache.values())`. -/
def cacheValues (c : List (String × String)) : List String := c.map Prod.snd

/-- The mutable state of the preview subsystem: the `previewCacheRef` map, the
`currentBlobUrlRef` pointer, and the set of blob URLs released so far through
`URL.revokeObjectURL`. -/
structure PreviewState where
  cache : List (String × String)
  current : Option String
  revoked : List String
deriving DecidableEq

/-- The eviction `while` loop of `cachePreviewUrl` (`App.tsx`): while the cache holds
more than `PREVIEW_CACHE_LIMIT` entries, delete the oldest; its URL is revoked only
when it differs from the currently-displayed URL and no longer occurs among the
remaining cached values.  The loop deletes one entry per iteration, so `fuel`
(initialised to the cache size) never runs out. -/
def evictLoop (current : Option String) :
    Nat → List (String × String) → List String → List (String × String) × List String
  | 0, c, revoked => (c, revoked)
  | fuel + 1, c, revoked =>
    if c.length > PREVIEW_CACHE_LIMIT then
      match c with
      | [] => ([], revoked)
      | oldest :: rest =>
        if some oldest.2 ≠ current ∧ oldest.2 ∉ cacheValues rest then
          evictLoop current fuel rest (revoked ++ [oldest.2])
        else
          evictLoop current fuel rest revoked
    else (c, revoked)

/-- `cachePreviewUrl` from `App.tsx`: delete any previous entry for the key, append
the new entry at the most-recently-used end, then run the eviction loop. -/
def cachePreviewUrl (s : PreviewState) (previewKey url : String) : PreviewState :=
  let inserted := eraseKey s.cache previewKey ++ [(previewKey, url)]
  let result := evictLoop s.current inserted.length inserted []
  { cache := result.1, current := s.current, revoked := s.revoked ++ result.2 }

/-- `getCachedPreviewUrl` from `App.tsx`: a hit re-inserts the entry at the
most-recently-used end and returns the cached URL (blob URLs are nonempty strings, so
the JavaScript falsy test coincides with the missing-entry test). -/
def getCachedPreviewUrl (s : PreviewState) (previewKey : String) :
    Option String × PreviewState :=
  match lookupKey s.cache previewKey with
  | none => (none, s)
  | some cached =>
      (some cached,
        { s with cache := eraseKey s.cache previewKey ++ [(previewKey, cached)] })

/-- The cache-miss path of `handleRenderPreview` (`App.tsx`): `URL.createObjectURL`
produced the fresh `url`; it is cached, the current pointer is swapped to it, and the
previous pointer is revoked only if it differs from the new URL and no longer occurs
among the cached values. -/
def renderPreviewMiss (s : PreviewState) (previewKey url : String) : PreviewState :=
  let s1 := cachePreviewUrl s previewKey url
  let previousUrl := s1.current
  let s2 := { s1 with current := some url }
  match previousUrl with
  | none => s2
  | some p =>
      if p ≠ url ∧ p ∉ cacheValues s2.cache then { s2 with revoked := s2.revoked ++ [p] }
      else s2

/-- The cache-hit path of `handleRenderPreview` (`App.tsx`): the entry is promoted and
the current pointer is moved to the cached URL, with no revocation. -/
def renderPreviewHit (s : PreviewState) (previewKey : String) : PreviewState :=
  match getCachedPreviewUrl s previewKey with
  | (none, s') => s'
  | (some cached, s') => { s' with current := some cached }

/-- The operations that touch the preview cache and the current pointer. -/
inductive PreviewOp where
  | render (previewKey url : String)
  | hit (previewKey : String)
deriving DecidableEq

def previewStep (s : PreviewState) : PreviewOp → PreviewState
  | .render k url => renderPreviewMiss s k url
  | .hit k => renderPreviewHit s k

def previewRun (s : PreviewState) : List PreviewOp → PreviewState
  | [] => s
  | op :: ops => previewRun (previewStep s op) ops

/-- Well-formed operation sequences: `URL.createObjectURL` always returns a brand-new
URL, so a rendered URL was never revoked before. -/
def previewWF (s : PreviewState) : List PreviewOp → Bool
  | [] => true
  | op :: ops =>
    (match op with
     | .render _ url => decide (url ∉ s.revoked)
     | .hit _ => true) && previewWF (previewStep s op) ops

/-- The component's initial state: empty cache, no displayed preview, nothing revoked. -/
def previewInit : PreviewState := ⟨[], none, []⟩

/-- The resource-safety invariant of claim C5: the cache never holds a revoked URL,
and the currently-displayed URL is never revoked. -/
def PreviewGood (s : PreviewState) : Prop :=
  s.cache.length ≤ PREVIEW_CACHE_LIMIT ∧
  (∀ u ∈ cacheValues s.cache, u ∉ s.revoked) ∧
  (∀ u, s.current = some u → u ∉ s.revoked)

theorem eraseKey_sublist (c : List (String × String)) (k : String) :
    (eraseKey c k).Sublist c := by
  induction c with
  | nil => exact List.Sublist.refl _
  | cons p ps ih =>
    simp only [eraseKey]
    by_cases h : p.1 = k
    · rw [if_pos h]
      exact List.sublist_cons_self p ps
    · rw [if_neg h]
      exact ih.cons₂ p

theorem eraseKey_of_not_mem {c : List (String × String)} {k : String}
    (h : k ∉ c.map Prod.fst) : eraseKey c k = c := by
  induction c with
  | nil => rfl
  | cons p ps ih =>
    simp only [List.map_cons, List.mem_cons] at h
    push_neg at h
    simp only [eraseKey]
    rw [if_neg (fun he => h.1 he.symm), ih h.2]

theorem keys_eraseKey_not_mem {c : List (String × String)} {k : String}
    (hn : (c.map Prod.fst).Nodup) : k ∉ (eraseKey c k).map Prod.fst := by
  induction c with
  | nil => simp [eraseKey]
  | cons p ps ih =>
    simp only [List.map_cons, List.nodup_cons] at hn
    simp only [eraseKey]
    by_cases h : p.1 = k
    · rw [if_pos h]
      exact fun hk => hn.1 (h ▸ hk)
    · rw [if_neg h]
      simp only [List.map_cons, List.mem_cons]
      rintro (hk | hk)
      · exact h hk.symm
      · exact ih hn.2 hk

theorem lookupKey_eq_none {c : List (String × String)} {k : String}
    (h : k ∉ c.map Prod.fst) : lookupKey c k = none := by
  induction c with
  | nil => rfl
  | cons p ps ih =>
    simp only [List.map_cons, List.mem_cons] at h
    push_neg at h
    simp only [lookupKey]
    rw [if_neg (fun he => h.1 he.symm), ih h.2]

theorem lookupKey_append {a b : List (String × String)} {k : String}
    (h : k ∉ a.map Prod.fst) : lookupKey (a ++ b) k = lookupKey b k := by
  induction a with
  | nil => rfl
  | cons p ps ih =>
    simp only [List.map_cons, List.mem_cons] at h
    push_neg at h
    simp only [List.cons_append, lookupKey]
    rw [if_neg (fun he => h.1 he.symm)]
    exact ih h.2

theorem lookupKey_mem_values {c : List (String × String)} {k v : String}
    (h : lookupKey c k = some v) : v ∈ cacheValues c := by
  induction c with
  | nil => exact absurd h (by simp [lookupKey])
  | cons p ps ih =>
    simp only [lookupKey] at h
    by_cases hk : p.1 = k
    · rw [if_pos hk] at h
      simp only [cacheValues, List.map_cons, List.mem_cons]
      exact Or.inl (Option.some.inj h).symm
    · rw [if_neg hk] at h
      simp only [cacheValues, List.map_cons, List.mem_cons]
      exact Or.inr (ih h)

theorem length_eraseKey_of_lookup {c : List (String × String)} {k v : String}
    (h : lookupKey c k = some v) : (eraseKey c k).length + 1 = c.length := by
  induction c with
  | nil => exact absurd h (by simp [lookupKey])
  | cons p ps ih =>
    simp only [lookupKey] at h
    simp only [eraseKey]
    by_cases hk : p.1 = k
    · rw [if_pos hk]
      simp
    · rw [if_neg hk] at h
      rw [if_neg hk]
      simp only [List.length_cons]
      rw [← ih h]

theorem evictLoop_fst (current : Option String) :
    ∀ fuel (c : List (String × String)) (revoked : List String), c.length ≤ fuel →
      (evictLoop current fuel c revoked).1 = c.drop (c.length - PREVIEW_CACHE_LIMIT) := by
  intro fuel
  induction fuel with
  | zero =>
    intro c revoked hc
    have hnil : c = [] := List.length_eq_zero.mp (Nat.le_zero.mp hc)
    subst hnil
    simp [evictLoop]
  | succ fuel ih =>
    intro c revoked hc
    by_cases hlen : c.length > PREVIEW_CACHE_LIMIT
    · cases c with
      | nil => exact absurd hlen (by simp)
      | cons oldest rest =>
        have hrest : rest.length ≤ fuel := by
          simp only [List.length_cons] at hc
          omega
        have h30 : (oldest :: rest).length - PREVIEW_CACHE_LIMIT =
            (rest.length - PREVIEW_CACHE_LIMIT) + 1 := by
          simp only [List.length_cons] at hlen ⊢
          omega
        simp only [evictLoop]
        rw [if_pos hlen]
        by_cases hrv : some oldest.2 ≠ current ∧ oldest.2 ∉ cacheValues rest
        · rw [if_pos hrv, ih rest _ hrest, h30, List.drop_succ_cons]
        · rw [if_neg hrv, ih rest _ hrest, h30, List.drop_succ_cons]
    · simp only [evictLoop]
      rw [if_neg hlen, Nat.sub_eq_zero_of_le (le_of_not_lt hlen), List.drop_zero]

theorem evictLoop_snd_spec (current : Option String) :
    ∀ fuel (c : List (String × String)) (revoked : List String), c.length ≤ fuel →
      ∀ u ∈ (evictLoop current fuel c revoked).2,
        u ∈ revoked ∨
          (some u ≠ current ∧ u ∉ cacheValues (evictLoop current fuel c revoked).1) := by
  intro fuel
  induction fuel with
  | zero =>
    intro c revoked hc u hu
    have hnil : c = [] := List.length_eq_zero.mp (Nat.le_zero.mp hc)
    subst hnil
    simp only [evictLoop] at hu
    exact Or.inl hu
  | succ fuel ih =>
    intro c revoked hc u hu
    by_cases hlen : c.length > PREVIEW_CACHE_LIMIT
    · cases c with
      | nil => exact absurd hlen (by simp)
      | cons oldest rest =>
        have hrest : rest.length ≤ fuel := by
          simp only [List.length_cons] at hc
          omega
        simp only [evictLoop] at hu ⊢
        rw [if_pos hlen] at hu ⊢
        by_cases hrv : some oldest.2 ≠ current ∧ oldest.2 ∉ cacheValues rest
        · rw [if_pos hrv] at hu ⊢
          rcases ih rest _ hrest u hu with hin | hsafe
          · rcases List.mem_append.mp hin with hold | hnew
            · exact Or.inl hold
            · have hue : u = oldest.2 := List.mem_singleton.mp hnew
              subst hue
              refine Or.inr ⟨hrv.1, fun hbad => hrv.2 ?_⟩
              rw [evictLoop_fst current fuel rest _ hrest] at hbad
              exact ((List.drop_sublist _ rest).map Prod.snd).subset hbad
          · exact Or.inr hsafe
        · rw [if_neg hrv] at hu ⊢
          exact ih rest _ hrest u hu
    · simp only [evictLoop] at hu ⊢
      rw [if_neg hlen] at hu
      exact Or.inl hu

theorem cachePreviewUrl_cache (s : PreviewState) (k url : String) :
    (cachePreviewUrl s k url).cache =
      (eraseKey s.cache k ++ [(k, url)]).drop
        ((eraseKey s.cache k).length + 1 - PREVIEW_CACHE_LIMIT) := by
  simp only [cachePreviewUrl]
  rw [evictLoop_fst s.current _ _ _ le_rfl]
  simp [List.length_append]

theorem cachePreviewUrl_current (s : PreviewState) (k url : String) :
    (cachePreviewUrl s k url).current = s.current := rfl

theorem cachePreviewUrl_length_le (s : PreviewState) (k url : String) :
    (cachePreviewUrl s k url).cache.length ≤ PREVIEW_CACHE_LIMIT := by
  rw [cachePreviewUrl_cache, List.length_drop]
  have hL : 1 ≤ PREVIEW_CACHE_LIMIT := by decide
  simp only [List.length_append, List.length_cons, List.length_nil]
  omega

theorem mem_cachePreviewUrl (s : PreviewState) (k url : String) :
    (k, url) ∈ (cachePreviewUrl s k url).cache := by
  rw [cachePreviewUrl_cache]
  have hL : 1 ≤ PREVIEW_CACHE_LIMIT := by decide
  have hm : (eraseKey s.cache k).length + 1 - PREVIEW_CACHE_LIMIT ≤
      (eraseKey s.cache k).length := by omega
  rw [List.drop_append_of_le_length hm]
  exact List.mem_append_right _ (by simp)

theorem cachePreviewUrl_values_subset (s : PreviewState) (k url : String) :
    ∀ u ∈ cacheValues (cachePreviewUrl s k url).cache,
      u ∈ cacheValues s.cache ∨ u = url := by
  intro u hu
  rw [cachePreviewUrl_cache] at hu
  have h1 : u ∈ cacheValues (eraseKey s.cache k ++ [(k, url)]) :=
    ((List.drop_sublist _ _).map Prod.snd).subset hu
  simp only [cacheValues, List.map_append, List.map_cons, List.map_nil] at h1
  rcases List.mem_append.mp h1 with h | h
  · exact Or.inl (((eraseKey_sublist s.cache k).map Prod.snd).subset h)
  · simp only [List.mem_singleton] at h
    exact Or.inr h

theorem cachePreviewUrl_revoked (s : PreviewState) (k url : String) :
    ∀ u ∈ (cachePreviewUrl s k url).revoked,
      u ∈ s.revoked ∨
        (some u ≠ s.current ∧ u ∉ cacheValues (cachePreviewUrl s k url).cache) := by
  intro u hu
  simp only [cachePreviewUrl] at hu ⊢
  rcases List.mem_append.mp hu with h | h
  · exact Or.inl h
  · rcases evictLoop_snd_spec s.current _ _ _ le_rfl u h with h2 | h2
    · exact absurd h2 (List.not_mem_nil u)
    · exact Or.inr h2

/-- One step of the preview subsystem preserves the resource-safety invariant. -/
theorem previewStep_good {s : PreviewState} (hg : PreviewGood s) :
    ∀ op : PreviewOp,
      (match op with
       | .render _ url => url ∉ s.revoked
       | .hit _ => True) →
      PreviewGood (previewStep s op) := by
  intro op hwf
  cases op with
  | render k url =>
    have hwfu : url ∉ s.revoked := hwf
    have hA := cachePreviewUrl_length_le s k url
    have hrev := cachePreviewUrl_revoked s k url
    have hsub := cachePreviewUrl_values_subset s k url
    have hB : ∀ u ∈ cacheValues (cachePreviewUrl s k url).cache,
        u ∉ (cachePreviewUrl s k url).revoked := by
      intro u hu hbad
      rcases hrev u hbad with h | h
      · rcases hsub u hu with h2 | h2
        · exact hg.2.1 u h2 h
        · exact hwfu (h2 ▸ h)
      · exact h.2 hu
    have hD : url ∈ cacheValues (cachePreviewUrl s k url).cache :=
      List.mem_map.mpr ⟨(k, url), mem_cachePreviewUrl s k url, rfl⟩
    have hE : url ∉ (cachePreviewUrl s k url).revoked := hB url hD
    have hC : ∀ u, s.current = some u → u ∉ (cachePreviewUrl s k url).revoked := by
      intro u hcu hbad
      rcases hrev u hbad with h | h
      · exact hg.2.2 u hcu h
      · exact h.1 hcu.symm
    show PreviewGood (renderPreviewMiss s k url)
    simp only [renderPreviewMiss]
    split
    · refine ⟨hA, hB, ?_⟩
      intro u hu
      have : url = u := by simpa using hu
      exact this ▸ hE
    · rename_i p hp
      split
      · rename_i hcond
        refine ⟨hA, ?_, ?_⟩
        · intro u hu hbad
          rcases List.mem_append.mp hbad with h | h
          · exact hB u hu h
          · have hup : u = p := by simpa using h
            exact hcond.2 (hup ▸ hu)
        · intro u hu hbad
          have huu : url = u := by simpa using hu
          subst huu
          rcases List.mem_append.mp hbad with h | h
          · exact hE h
          · have : url = p := by simpa using h
            exact hcond.1 this.symm
      · refine ⟨hA, hB, ?_⟩
        intro u hu
        have : url = u := by simpa using hu
        exact this ▸ hE
  | hit k =>
    show PreviewGood (renderPreviewHit s k)
    simp only [renderPreviewHit]
    cases hlk : lookupKey s.cache k with
    | none => simpa [getCachedPreviewUrl, hlk] using hg
    | some cached =>
      simp only [getCachedPreviewUrl, hlk]
      have hlen : (eraseKey s.cache k).length + 1 = s.cache.length :=
        length_eraseKey_of_lookup hlk
      have hcv : cached ∈ cacheValues s.cache := lookupKey_mem_values hlk
      refine ⟨?_, ?_, ?_⟩
      · simp only [List.length_append, List.length_cons, List.length_nil]
        have := hg.1
        omega
      · intro u hu
        have : u ∈ cacheValues s.cache := by
          simp only [cacheValues, List.map_append, List.map_cons, List.map_nil] at hu
          rcases List.mem_append.mp hu with h | h
          · exact ((eraseKey_sublist s.cache k).map Prod.snd).subset h
          · have : u = cached := by simpa using h
            exact this ▸ hcv
        exact hg.2.1 u this
      · intro u hu
        have : cached = u := by simpa using hu
        exact this ▸ hg.2.1 cached hcv

/-- Running any sequence of preview operations preserves the invariant. -/
theorem previewRun_good : ∀ (ops : List PreviewOp) (s : PreviewState),
    PreviewGood s → previewWF s ops = true → PreviewGood (previewRun s ops) := by
  intro ops
  induction ops with
  | nil => intro s hg _; exact hg
  | cons op ops ih =>
    intro s hg hwf
    simp only [previewWF, Bool.and_eq_true] at hwf
    cases op with
    | render k url =>
      exact ih _ (previewStep_good hg _ (of_decide_eq_true hwf.1)) hwf.2
    | hit k =>
      exact ih _ (previewStep_good hg _ trivial) hwf.2

/-- C5: for every sequence of cache insertions, evictions and current-pointer updates
(with `URL.createObjectURL` always producing fresh URLs), the invariant holds that no
revoked blob URL is ever referenced by the cache or by the currently-displayed
pointer.  Applied to every prefix of a run, this says the displayed resource is never
released even when its cache entry is evicted, and a resource is released only once
neither the cache nor the pointer references it. -/
theorem c5_displayed_url_never_released (ops : List PreviewOp) (s : PreviewState)
    (hg : PreviewGood s) (hwf : previewWF s ops = true) :
    PreviewGood (previewRun s ops) :=
  previewRun_good ops s hg hwf

/-- Witness for `c5_displayed_url_never_released` on a concrete three-step run. -/
theorem c5_displayed_url_never_released_witness :
    PreviewGood previewInit ∧
    previewWF previewInit [.render "k1" "u1", .render "k2" "u2", .hit "k1"] = true ∧
    PreviewGood
      (previewRun previewInit [.render "k1" "u1", .render "k2" "u2", .hit "k1"]) := by
  have hg : PreviewGood previewInit := by
    refine ⟨by decide, ?_, ?_⟩
    · intro u hu
      simp [previewInit, cacheValues] at hu
    · intro u hu
      simp [previewInit] at hu
  have hwf : previewWF previewInit [.render "k1" "u1", .render "k2" "u2", .hit "k1"] =
      true := by decide
  exact ⟨hg, hwf, c5_displayed_url_never_released _ _ hg hwf⟩

/-- The last `n` elements of a list. After the eviction loop, the cache keeps the last
`PREVIEW_CACHE_LIMIT` entries in least-recently-used-first order. -/
def lastN {α : Type} (n : Nat) (l : List α) : List α := l.drop (l.length - n)

theorem lastN_append_right {α : Type} {n : Nat} {b : List α} (hnb : n ≤ b.length)
    (c : List α) : lastN n (c ++ b) = b.drop (b.length - n) := by
  rw [lastN, List.length_append]
  have h1 : c.length + b.length - n = c.length + (b.length - n) := by omega
  rw [h1, List.drop_append]

theorem lastN_append_lastN {α : Type} (n : Nat) (a b : List α) :
    lastN n (lastN n a ++ b) = lastN n (a ++ b) := by
  by_cases hab : a.length ≤ n
  · have ha : lastN n a = a := by
      rw [lastN, Nat.sub_eq_zero_of_le hab, List.drop_zero]
    rw [ha]
  · push_neg at hab
    by_cases hb : n ≤ b.length
    · rw [lastN_append_right hb, lastN_append_right hb]
    · push_neg at hb
      have hlen : (lastN n a).length = n := by
        rw [lastN, List.length_drop]
        omega
      rw [lastN, List.length_append, hlen]
      have h2 : n + b.length - n = b.length := by omega
      rw [h2, List.drop_append_of_le_length (by omega : b.length ≤ (lastN n a).length)]
      rw [lastN, List.drop_drop]
      rw [lastN, List.length_append, List.drop_append_of_le_length (by omega)]
      have h3 : a.length - n + b.length = a.length + b.length - n := by omega
      rw [h3]

/-- Folding `cachePreviewUrl` over a list of key/URL pairs. -/
def putAll (s : PreviewState) (ps : List (String × String)) : PreviewState :=
  ps.foldl (fun t p => cachePreviewUrl t p.1 p.2) s

/-- After inserting pairwise-fresh keys, the cache keys are the last
`PREVIEW_CACHE_LIMIT` of the old keys followed by the inserted ones. -/
theorem putAll_keys : ∀ (ps : List (String × String)) (s : PreviewState),
    (s.cache.map Prod.fst ++ ps.map Prod.fst).Nodup →
    s.cache.length ≤ PREVIEW_CACHE_LIMIT →
    (putAll s ps).cache.map Prod.fst =
      lastN PREVIEW_CACHE_LIMIT (s.cache.map Prod.fst ++ ps.map Prod.fst) := by
  intro ps
  induction ps with
  | nil =>
    intro s hn hlen
    simp only [putAll, List.foldl_nil, List.map_nil, List.append_nil, lastN,
      List.length_map]
    rw [Nat.sub_eq_zero_of_le hlen, List.drop_zero]
  | cons p ps ih =>
    intro s hn hlen
    have hk : p.1 ∉ s.cache.map Prod.fst := by
      intro hbad
      exact (List.nodup_append.mp hn).2.2 hbad (List.mem_cons_self _ _)
    have hstep : (cachePreviewUrl s p.1 p.2).cache.map Prod.fst =
        lastN PREVIEW_CACHE_LIMIT (s.cache.map Prod.fst ++ [p.1]) := by
      have hc : (cachePreviewUrl s p.1 p.2).cache =
          (s.cache ++ [(p.1, p.2)]).drop (s.cache.length + 1 - PREVIEW_CACHE_LIMIT) := by
        rw [cachePreviewUrl_cache, eraseKey_of_not_mem hk]
      rw [hc, List.map_drop, List.map_append]
      simp only [List.map_cons, List.map_nil, lastN, List.length_append,
        List.length_map, List.length_cons, List.length_nil]
    have hsub : ((cachePreviewUrl s p.1 p.2).cache.map Prod.fst ++ ps.map Prod.fst).Sublist
        (s.cache.map Prod.fst ++ (p :: ps).map Prod.fst) := by
      rw [hstep]
      have h1 : (lastN PREVIEW_CACHE_LIMIT (s.cache.map Prod.fst ++ [p.1])).Sublist
          (s.cache.map Prod.fst ++ [p.1]) := List.drop_sublist _ _
      have h2 := h1.append_right (ps.map Prod.fst)
      rw [List.append_assoc, List.singleton_append] at h2
      exact h2
    have hgoal := ih (cachePreviewUrl s p.1 p.2)
      (hsub.nodup hn) (cachePreviewUrl_length_le s p.1 p.2)
    show (putAll (cachePreviewUrl s p.1 p.2) ps).cache.map Prod.fst = _
    rw [hgoal, hstep, lastN_append_lastN]
    rw [List.append_assoc, List.singleton_append]
    rfl

/-- C4: the preview cache satisfies the round-trip law (`put(k, h); get(k) = h`), is
LRU-bounded with capacity `PREVIEW_CACHE_LIMIT = 30` — from an empty cache, inserting
`capacity + 1` distinct keys with no intervening accesses makes the first-inserted key
a miss — and a `get` promotes an entry to most-recently-used so that it survives the
next eviction-triggering fresh insertion. -/
theorem c4_preview_cache_lru :
    (∀ (s : PreviewState) (k h : String), (s.cache.map Prod.fst).Nodup →
      (getCachedPreviewUrl (cachePreviewUrl s k h) k).1 = some h) ∧
    (∀ ps : List (String × String), (ps.map Prod.fst).Nodup →
      ps.length = PREVIEW_CACHE_LIMIT + 1 →
      ∀ p0, ps.head? = some p0 →
        lookupKey (putAll previewInit ps).cache p0.1 = none) ∧
    (∀ (s : PreviewState) (k v k' u : String), (s.cache.map Prod.fst).Nodup →
      s.cache.length ≤ PREVIEW_CACHE_LIMIT →
      lookupKey s.cache k = some v → k' ∉ s.cache.map Prod.fst → k' ≠ k →
      lookupKey (cachePreviewUrl ((getCachedPreviewUrl s k).2) k' u).cache k = some v) := by
  refine ⟨?_, ?_, ?_⟩
  · intro s k h hn
    have hkE : k ∉ (eraseKey s.cache k).map Prod.fst := keys_eraseKey_not_mem hn
    have hL : 1 ≤ PREVIEW_CACHE_LIMIT := by decide
    have hm : (eraseKey s.cache k).length + 1 - PREVIEW_CACHE_LIMIT ≤
        (eraseKey s.cache k).length := by omega
    have hlk : lookupKey (cachePreviewUrl s k h).cache k = some h := by
      rw [cachePreviewUrl_cache, List.drop_append_of_le_length hm,
        lookupKey_append
          (fun hbad => hkE (((List.drop_sublist _ _).map Prod.fst).subset hbad))]
      simp [lookupKey]
    simp [getCachedPreviewUrl, hlk]
  · intro ps hn hlen p0 hp0
    cases ps with
    | nil => simp at hp0
    | cons q rest =>
      have hq : q = p0 := by simpa using hp0
      subst hq
      have hkeys := putAll_keys (q :: rest) previewInit (by simpa [previewInit] using hn)
        (by simp [previewInit])
      apply lookupKey_eq_none
      rw [hkeys]
      have hrest : rest.length = PREVIEW_CACHE_LIMIT := by
        simp only [List.length_cons] at hlen
        omega
      have hlast : lastN PREVIEW_CACHE_LIMIT
          (previewInit.cache.map Prod.fst ++ (q :: rest).map Prod.fst) =
          rest.map Prod.fst := by
        simp only [previewInit, List.map_nil, List.nil_append, List.map_cons, lastN,
          List.length_cons, List.length_map, hrest]
        have h1 : PREVIEW_CACHE_LIMIT + 1 - PREVIEW_CACHE_LIMIT = 1 := by omega
        rw [h1, List.drop_succ_cons, List.drop_zero]
      rw [hlast]
      rw [List.map_cons] at hn
      exact (List.nodup_cons.mp hn).1
  · intro s k v k' u hn hlen hv hk' hkk
    have hgd : (getCachedPreviewUrl s k).2 =
        { s with cache := eraseKey s.cache k ++ [(k, v)] } := by
      simp [getCachedPreviewUrl, hv]
    rw [hgd]
    have hkE : k ∉ (eraseKey s.cache k).map Prod.fst := keys_eraseKey_not_mem hn
    have hk'e : k' ∉ (eraseKey s.cache k ++ [(k, v)]).map Prod.fst := by
      simp only [List.map_append, List.map_cons, List.map_nil, List.mem_append,
        List.mem_singleton]
      rintro (h | h)
      · exact hk' (((eraseKey_sublist s.cache k).map Prod.fst).subset h)
      · exact hkk h
    have hlenE : (eraseKey s.cache k).length + 1 = s.cache.length :=
      length_eraseKey_of_lookup hv
    have hc : (cachePreviewUrl { s with cache := eraseKey s.cache k ++ [(k, v)] } k' u).cache =
        ((eraseKey s.cache k ++ [(k, v)]) ++ [(k', u)]).drop
          ((eraseKey s.cache k ++ [(k, v)]).length + 1 - PREVIEW_CACHE_LIMIT) := by
      rw [cachePreviewUrl_cache]
      rw [eraseKey_of_not_mem hk'e]
    rw [hc]
    have hL2 : 2 ≤ PREVIEW_CACHE_LIMIT := by decide
    have hm : (eraseKey s.cache k ++ [(k, v)]).length + 1 - PREVIEW_CACHE_LIMIT ≤
        (eraseKey s.cache k).length := by
      simp only [List.length_append, List.length_cons, List.length_nil]
      omega
    rw [List.append_assoc, List.drop_append_of_le_length hm,
      lookupKey_append
        (fun hbad => hkE (((List.drop_sublist _ _).map Prod.fst).subset hbad))]
    simp [lookupKey]

/-- Thirty-one key/URL pairs with pairwise-distinct keys. -/
def c4Pairs : List (String × String) :=
  [("k00", "u"), ("k01", "u"), ("k02", "u"), ("k03", "u"), ("k04", "u"), ("k05", "u"),
   ("k06", "u"), ("k07", "u"), ("k08", "u"), ("k09", "u"), ("k10", "u"), ("k11", "u"),
   ("k12", "u"), ("k13", "u"), ("k14", "u"), ("k15", "u"), ("k16", "u"), ("k17", "u"),
   ("k18", "u"), ("k19", "u"), ("k20", "u"), ("k21", "u"), ("k22", "u"), ("k23", "u"),
   ("k24", "u"), ("k25", "u"), ("k26", "u"), ("k27", "u"), ("k28", "u"), ("k29", "u"),
   ("k30", "u")]

/-- Witness for `c4_preview_cache_lru`: a concrete round trip, the eviction of the
first of 31 fresh keys, and the survival of a promoted key. -/
theorem c4_preview_cache_lru_witness :
    (previewInit.cache.map Prod.fst).Nodup ∧
    ((c4Pairs.map Prod.fst).Nodup ∧ c4Pairs.length = PREVIEW_CACHE_LIMIT + 1) ∧
    ((getCachedPreviewUrl (cachePreviewUrl previewInit "k" "u") "k").1 = some "u" ∧
      lookupKey (putAll previewInit c4Pairs).cache "k00" = none ∧
      lookupKey
        (cachePreviewUrl ((getCachedPreviewUrl ⟨[("a", "x")], none, []⟩ "a").2) "b" "y").cache
        "a" = some "x") := by
  refine ⟨by decide, ⟨by decide, by decide⟩, ?_, ?_, ?_⟩
  · exact c4_preview_cache_lru.1 previewInit "k" "u" (by decide)
  · exact c4_preview_cache_lru.2.1 c4Pairs (by decide) (by decide) ("k00", "u") rfl
  · exact c4_preview_cache_lru.2.2 ⟨[("a", "x")], none, []⟩ "a" "x" "b" "y"
      (by decide) (by decide) (by decide) (by decide) (by decide)

/-! ### Latest-call coordinator (`PyWorkerClient.callLatest` / `cancelLatest`) -/

/-- Pointwise update of a map modelled as a function (`Map.set` / `Map.delete` with an
`Option` codomain). -/
def setFn {κ α : Type} [DecidableEq κ] (f : κ → α) (k : κ) (a : α) : κ → α :=
  fun x => if x = k then a else f x

/-- How one `callLatest` invocation settles, as observed by its caller. -/
inductive LatestOutcome where
  | delivered
  | latestCallCancelled
  | userError
deriving DecidableEq

/-- The latest-call bookkeeping of `PyWorkerClient`
(`latestCallCounters` / `latestCallControllers`), together with the observation log
needed to state the claims: `captured` records, per invocation id, the slot key and
the generation (`nextCount`) captured at issue time; `aborted` marks invocations
whose `AbortController` has fired; `outcomes` logs how each settled invocation was
resolved toward its caller. -/
structure LatestState where
  latestCallCounters : String → Nat
  latestCallControllers : String → Option Nat
  captured : Nat → Option (String × Nat)
  aborted : Nat → Bool
  outcomes : Nat → Option LatestOutcome

/-- `previousController?.abort()`: the aborted flags after firing the controller
stored for `key`, if any. -/
def abortStored (s : LatestState) (key : String) : Nat → Bool :=
  match s.latestCallControllers key with
  | some prev => setFn s.aborted prev true
  | none => s.aborted

/-- `callLatest` (`PyWorkerClient`): `nextCount := (counters.get(key) ?? 0) + 1` is
stored as the slot's counter and captured by the invocation; the previously stored
controller (if any) is aborted and a fresh controller for `id` is stored. -/
def callLatest (s : LatestState) (id : Nat) (key : String) : LatestState :=
  let nextCount := s.latestCallCounters key + 1
  { latestCallCounters := setFn s.latestCallCounters key nextCount
    latestCallControllers := setFn s.latestCallControllers key (some id)
    captured := setFn s.captured id (some (key, nextCount))
    aborted := abortStored s key
    outcomes := s.outcomes }

/-- `cancelLatest` (`PyWorkerClient`): bump the slot's counter and abort and drop the
stored controller, without issuing a new call. -/
def cancelLatest (s : LatestState) (key : String) : LatestState :=
  { latestCallCounters := setFn s.latestCallCounters key (s.latestCallCounters key + 1)
    latestCallControllers := setFn s.latestCallControllers key none
    captured := s.captured
    aborted := abortStored s key
    outcomes := s.outcomes }

/-- Settlement of invocation `id`'s underlying `call` promise (`ok` = fulfilled).  The
`then` branch of `callLatest` delivers the value only when the captured generation
still equals the slot's counter and otherwise throws `LatestCallCancelledError`; the
`catch` branch converts the rejection into `LatestCallCancelledError` when this call's
controller was aborted and the generation is stale, and rethrows the original
(user-visible) error otherwise; the `finally` branch drops the stored controller if it
is still this invocation's.  A promise settles at most once. -/
def completeLatest (s : LatestState) (id : Nat) (ok : Bool) : LatestState :=
  match s.captured id with
  | none => s
  | some (key, gen) =>
    match s.outcomes id with
    | some _ => s
    | none =>
      let outcome :=
        if ok then
          if s.latestCallCounters key = gen then LatestOutcome.delivered
          else LatestOutcome.latestCallCancelled
        else
          if s.aborted id ∧ s.latestCallCounters key ≠ gen then
            LatestOutcome.latestCallCancelled
          else LatestOutcome.userError
      { s with
        outcomes := setFn s.outcomes id (some outcome)
        latestCallControllers :=
          if s.latestCallControllers key = some id then
            setFn s.latestCallControllers key none
          else s.latestCallControllers }

/-- The events that drive the coordinator for a fixed client instance. -/
inductive LatestEvent where
  | issue (id : Nat) (key : String)
  | cancel (key : String)
  | complete (id : Nat) (ok : Bool)
deriving DecidableEq

def latestStep (s : LatestState) : LatestEvent → LatestState
  | .issue id key => callLatest s id key
  | .cancel key => cancelLatest s key
  | .complete id ok => completeLatest s id ok

def latestRun (s : LatestState) : List LatestEvent → LatestState
  | [] => s
  | e :: es => latestRun (latestStep s e) es

/-- Well-formed event sequences: invocation ids are fresh (`nextId` is strictly
increasing in the client), and only issued, not-yet-settled invocations complete. -/
def latestWF (s : LatestState) : List LatestEvent → Bool
  | [] => true
  | e :: es =>
    (match e with
     | .issue id _ => (s.captured id).isNone
     | .cancel _ => true
     | .complete id _ => (s.captured id).isSome && (s.outcomes id).isNone) &&
    latestWF (latestStep s e) es

/-- A fresh `PyWorkerClient`: no counters, controllers, calls or outcomes. -/
def latestInit : LatestState :=
  ⟨fun _ => 0, fun _ => none, fun _ => none, fun _ => false, fun _ => none⟩

/-- The coordinator invariant: an in-flight invocation's captured generation never
exceeds the slot's counter; if it is current, the stored controller is this
invocation's; if it is stale, this invocation's controller has been aborted. -/
def LatestInv (s : LatestState) : Prop :=
  ∀ id key gen, s.captured id = some (key, gen) → s.outcomes id = none →
    gen ≤ s.latestCallCounters key ∧
    (gen = s.latestCallCounters key → s.latestCallControllers key = some id) ∧
    (gen ≠ s.latestCallCounters key → s.aborted id = true)

theorem setFn_self {κ α : Type} [DecidableEq κ] (f : κ → α) (k : κ) (a : α) :
    setFn f k a k = a := by simp [setFn]

theorem setFn_ne {κ α : Type} [DecidableEq κ] (f : κ → α) (k : κ) (a : α) {x : κ}
    (h : x ≠ k) : setFn f k a x = f x := by simp [setFn, h]

theorem abortStored_mono {s : LatestState} {key : String} {id : Nat}
    (h : s.aborted id = true) : abortStored s key id = true := by
  unfold abortStored
  cases hctl : s.latestCallControllers key with
  | none => exact h
  | some prev =>
    show setFn s.aborted prev true id = true
    by_cases hip : id = prev
    · subst hip
      simp [setFn]
    · rw [setFn_ne _ _ _ hip]
      exact h

theorem abortStored_stored {s : LatestState} {key : String} {id : Nat}
    (h : s.latestCallControllers key = some id) : abortStored s key id = true := by
  unfold abortStored
  rw [h]
  simp [setFn]

theorem completeLatest_captured (s : LatestState) (id0 : Nat) (ok : Bool) :
    (completeLatest s id0 ok).captured = s.captured := by
  simp only [completeLatest]
  cases hc : s.captured id0 with
  | none => rfl
  | some kg =>
    obtain ⟨k0, g0⟩ := kg
    cases ho : s.outcomes id0 with
    | some _ => rfl
    | none => rfl

theorem completeLatest_counters (s : LatestState) (id0 : Nat) (ok : Bool) :
    (completeLatest s id0 ok).latestCallCounters = s.latestCallCounters := by
  simp only [completeLatest]
  cases hc : s.captured id0 with
  | none => rfl
  | some kg =>
    obtain ⟨k0, g0⟩ := kg
    cases ho : s.outcomes id0 with
    | some _ => rfl
    | none => rfl

theorem completeLatest_aborted (s : LatestState) (id0 : Nat) (ok : Bool) :
    (completeLatest s id0 ok).aborted = s.aborted := by
  simp only [completeLatest]
  cases hc : s.captured id0 with
  | none => rfl
  | some kg =>
    obtain ⟨k0, g0⟩ := kg
    cases ho : s.outcomes id0 with
    | some _ => rfl
    | none => rfl

theorem completeLatest_outcomes_ne (s : LatestState) (id0 : Nat) (ok : Bool) {i : Nat}
    (hi : i ≠ id0) : (completeLatest s id0 ok).outcomes i = s.outcomes i := by
  simp only [completeLatest]
  cases hc : s.captured id0 with
  | none => rfl
  | some kg =>
    obtain ⟨k0, g0⟩ := kg
    cases ho : s.outcomes id0 with
    | some _ => rfl
    | none => exact setFn_ne _ _ _ hi

theorem completeLatest_controllers_stable (s : LatestState) (id0 : Nat) (ok : Bool)
    {k : String} {i : Nat} (hk : s.latestCallControllers k = some i) (hi : i ≠ id0) :
    (completeLatest s id0 ok).latestCallControllers k = some i := by
  simp only [completeLatest]
  cases hc : s.captured id0 with
  | none => exact hk
  | some kg =>
    obtain ⟨k0, g0⟩ := kg
    cases ho : s.outcomes id0 with
    | some _ => exact hk
    | none =>
      show (if s.latestCallControllers k0 = some id0 then
          setFn s.latestCallControllers k0 none
        else s.latestCallControllers) k = some i
      by_cases hks : k = k0
      · subst hks
        rw [if_neg fun hcc => hi (Option.some.inj (hk ▸ hcc))]
        exact hk
      · split
        · rw [setFn_ne _ _ _ hks]
          exact hk
        · exact hk

/-- One coordinator event preserves the invariant. -/
theorem latestStep_inv {s : LatestState} (hinv : LatestInv s) :
    ∀ e : LatestEvent,
      (match e with
       | .issue id _ => (s.captured id).isNone
       | .cancel _ => true
       | .complete id _ => (s.captured id).isSome && (s.outcomes id).isNone) = true →
      LatestInv (latestStep s e) := by
  intro e hwf
  cases e with
  | issue id0 key0 =>
    intro id key gen hc ho
    have ho' : s.outcomes id = none := ho
    by_cases hid : id = id0
    · subst hid
      have hc' : (some (key0, s.latestCallCounters key0 + 1) : Option (String × Nat)) =
          some (key, gen) := by
        simpa [latestStep, callLatest, setFn] using hc
      simp only [Option.some.injEq, Prod.mk.injEq] at hc'
      obtain ⟨hk, hg⟩ := hc'
      subst hk
      subst hg
      refine ⟨?_, ?_, ?_⟩
      · simp [latestStep, callLatest, setFn]
      · intro _
        simp [latestStep, callLatest, setFn]
      · intro hbad
        exact absurd (by simp [latestStep, callLatest, setFn]) hbad
    · have hc' : s.captured id = some (key, gen) := by
        simpa [latestStep, callLatest, setFn, hid] using hc
      obtain ⟨h1, h2, h3⟩ := hinv id key gen hc' ho'
      by_cases hkey : key = key0
      · subst hkey
        have hcnt : (latestStep s (.issue id0 key)).latestCallCounters key =
            s.latestCallCounters key + 1 := by
          simp [latestStep, callLatest, setFn]
        refine ⟨?_, ?_, ?_⟩
        · rw [hcnt]
          omega
        · intro hgen
          rw [hcnt] at hgen
          omega
        · intro _
          show abortStored s key id = true
          by_cases hcur : gen = s.latestCallCounters key
          · exact abortStored_stored (h2 hcur)
          · exact abortStored_mono (h3 hcur)
      · have hcnt : (latestStep s (.issue id0 key0)).latestCallCounters key =
            s.latestCallCounters key := by
          simp [latestStep, callLatest, setFn, hkey]
        refine ⟨?_, ?_, ?_⟩
        · rw [hcnt]
          exact h1
        · intro hgen
          rw [hcnt] at hgen
          have := h2 hgen
          show setFn s.latestCallControllers key0 (some id0) key = some id
          rw [setFn_ne _ _ _ hkey]
          exact this
        · intro hgen
          rw [hcnt] at hgen
          exact abortStored_mono (h3 hgen)
  | cancel key0 =>
    intro id key gen hc ho
    have hc' : s.captured id = some (key, gen) := hc
    have ho' : s.outcomes id = none := ho
    obtain ⟨h1, h2, h3⟩ := hinv id key gen hc' ho'
    by_cases hkey : key = key0
    · subst hkey
      have hcnt : (latestStep s (.cancel key)).latestCallCounters key =
          s.latestCallCounters key + 1 := by
        simp [latestStep, cancelLatest, setFn]
      refine ⟨?_, ?_, ?_⟩
      · rw [hcnt]
        omega
      · intro hgen
        rw [hcnt] at hgen
        omega
      · intro _
        show abortStored s key id = true
        by_cases hcur : gen = s.latestCallCounters key
        · exact abortStored_stored (h2 hcur)
        · exact abortStored_mono (h3 hcur)
    · have hcnt : (latestStep s (.cancel key0)).latestCallCounters key =
          s.latestCallCounters key := by
        simp [latestStep, cancelLatest, setFn, hkey]
      refine ⟨?_, ?_, ?_⟩
      · rw [hcnt]
        exact h1
      · intro hgen
        rw [hcnt] at hgen
        show setFn s.latestCallControllers key0 none key = some id
        rw [setFn_ne _ _ _ hkey]
        exact h2 hgen
      · intro hgen
        rw [hcnt] at hgen
        exact abortStored_mono (h3 hgen)
  | complete id0 ok =>
    simp only [Bool.and_eq_true, Option.isSome_iff_exists, Option.isNone_iff_eq_none] at hwf
    obtain ⟨⟨⟨key0, gen0⟩, hc0⟩, ho0⟩ := hwf
    intro id key gen hc ho
    have hosome : ((latestStep s (.complete id0 ok)).outcomes id0).isSome = true := by
      simp [latestStep, completeLatest, hc0, ho0, setFn]
    have hid : id ≠ id0 := by
      intro he
      subst he
      rw [ho] at hosome
      simp at hosome
    have hc' : s.captured id = some (key, gen) := by
      rw [show (latestStep s (.complete id0 ok)).captured = s.captured from
        completeLatest_captured s id0 ok] at hc
      exact hc
    have ho' : s.outcomes id = none := by
      have ho2 : (completeLatest s id0 ok).outcomes id = none := ho
      rw [completeLatest_outcomes_ne s id0 ok hid] at ho2
      exact ho2
    obtain ⟨h1, h2, h3⟩ := hinv id key gen hc' ho'
    have hcnt : ∀ k, (latestStep s (.complete id0 ok)).latestCallCounters k =
        s.latestCallCounters k := by
      intro k
      rw [show (latestStep s (.complete id0 ok)).latestCallCounters =
        s.latestCallCounters from completeLatest_counters s id0 ok]
    refine ⟨?_, ?_, ?_⟩
    · rw [hcnt]
      exact h1
    · intro hgen
      rw [hcnt] at hgen
      exact completeLatest_controllers_stable s id0 ok (h2 hgen) hid
    · intro hgen
      rw [hcnt] at hgen
      rw [show (latestStep s (.complete id0 ok)).aborted = s.aborted from
        completeLatest_aborted s id0 ok]
      exact h3 hgen

theorem latestInv_init : LatestInv latestInit := by
  intro id key gen hc _
  simp [latestInit] at hc

/-- The invariant holds in every reachable coordinator state. -/
theorem latestRun_inv : ∀ (evs : List LatestEvent) (s : LatestState),
    LatestInv s → latestWF s evs = true → LatestInv (latestRun s evs) := by
  intro evs
  induction evs with
  | nil => intro s h _; exact h
  | cons e es ih =>
    intro s h hwf
    simp only [latestWF, Bool.and_eq_true] at hwf
    exact ih _ (latestStep_inv h e hwf.1) hwf.2

theorem latestStep_counter_le (s : LatestState) (e : LatestEvent) (key : String) :
    s.latestCallCounters key ≤ (latestStep s e).latestCallCounters key := by
  cases e with
  | issue id0 key0 =>
    by_cases hk : key = key0
    · subst hk
      simp [latestStep, callLatest, setFn]
    · simp [latestStep, callLatest, setFn, hk]
  | cancel key0 =>
    by_cases hk : key = key0
    · subst hk
      simp [latestStep, cancelLatest, setFn]
    · simp [latestStep, cancelLatest, setFn, hk]
  | complete id0 ok =>
    rw [show (latestStep s (.complete id0 ok)).latestCallCounters =
      s.latestCallCounters from completeLatest_counters s id0 ok]

theorem latestRun_counter_le : ∀ (evs : List LatestEvent) (s : LatestState) (key : String),
    s.latestCallCounters key ≤ (latestRun s evs).latestCallCounters key := by
  intro evs
  induction evs with
  | nil => intro s key; exact le_rfl
  | cons e es ih =>
    intro s key
    exact le_trans (latestStep_counter_le s e key) (ih (latestStep s e) key)

theorem latestStep_aborted_mono (s : LatestState) (e : LatestEvent) {id : Nat}
    (h : s.aborted id = true) : (latestStep s e).aborted id = true := by
  cases e with
  | issue id0 key0 => exact abortStored_mono h
  | cancel key0 => exact abortStored_mono h
  | complete id0 ok =>
    rw [show (latestStep s (.complete id0 ok)).aborted = s.aborted from
      completeLatest_aborted s id0 ok]
    exact h

theorem latestRun_aborted : ∀ (evs : List LatestEvent) (s : LatestState) {id : Nat},
    s.aborted id = true → (latestRun s evs).aborted id = true := by
  intro evs
  induction evs with
  | nil => intro s id h; exact h
  | cons e es ih =>
    intro s id h
    exact ih (latestStep s e) (latestStep_aborted_mono s e h)

theorem latestRun_captured : ∀ (evs : List LatestEvent) (s : LatestState),
    latestWF s evs = true → ∀ {id : Nat} {v : String × Nat},
    s.captured id = some v → (latestRun s evs).captured id = some v := by
  intro evs
  induction evs with
  | nil => intro s _ id v h; exact h
  | cons e es ih =>
    intro s hwf id v h
    simp only [latestWF, Bool.and_eq_true] at hwf
    refine ih (latestStep s e) hwf.2 ?_
    cases e with
    | issue id0 key0 =>
      have hfree : s.captured id0 = none := by
        simpa [Option.isNone_iff_eq_none] using hwf.1
      have hid : id ≠ id0 := by
        intro he
        rw [he, hfree] at h
        cases h
      show setFn s.captured id0 (some (key0, s.latestCallCounters key0 + 1)) id = some v
      rw [setFn_ne _ _ _ hid]
      exact h
    | cancel key0 => exact h
    | complete id0 ok =>
      rw [show (latestStep s (.complete id0 ok)).captured = s.captured from
        completeLatest_captured s id0 ok]
      exact h

/-- C1: for every well-formed sequence of `callLatest` / `cancelLatest` invocations on
one client, an invocation that completes delivers its result only when its captured
generation still equals the slot's current counter, and every invocation whose
generation is stale at completion rejects with `LatestCallCancelledError` — never with
a user-visible error. -/
theorem c1_latest_call_only_current_delivered (evs : List LatestEvent)
    (hwf : latestWF latestInit evs = true) (id : Nat) (key : String) (gen : Nat)
    (ok : Bool)
    (hc : (latestRun latestInit evs).captured id = some (key, gen))
    (ho : (latestRun latestInit evs).outcomes id = none) :
    ((completeLatest (latestRun latestInit evs) id ok).outcomes id =
        some LatestOutcome.delivered →
      gen = (latestRun latestInit evs).latestCallCounters key) ∧
    (gen ≠ (latestRun latestInit evs).latestCallCounters key →
      (completeLatest (latestRun latestInit evs) id ok).outcomes id =
        some LatestOutcome.latestCallCancelled) := by
  have hinv := latestRun_inv evs latestInit latestInv_init hwf id key gen hc ho
  set s := latestRun latestInit evs with hs
  have hout : (completeLatest s id ok).outcomes id =
      some (if ok then
              (if s.latestCallCounters key = gen then LatestOutcome.delivered
               else LatestOutcome.latestCallCancelled)
            else
              (if s.aborted id ∧ s.latestCallCounters key ≠ gen then
                 LatestOutcome.latestCallCancelled
               else LatestOutcome.userError)) := by
    simp only [completeLatest, hc, ho]
    simp [setFn]
  have hstale : gen ≠ s.latestCallCounters key →
      (completeLatest s id ok).outcomes id = some LatestOutcome.latestCallCancelled := by
    intro hne
    rw [hout]
    have hne' : ¬s.latestCallCounters key = gen := fun h => hne h.symm
    cases ok with
    | true => simp [hne']
    | false =>
      have hab : s.aborted id = true := hinv.2.2 hne
      simp [hab, hne']
  refine ⟨?_, hstale⟩
  intro hdel
  by_contra hne
  rw [hstale hne] at hdel
  simp at hdel

/-- Witness for `c1_latest_call_only_current_delivered`: two `callLatest` invocations
on slot `"x"`; the first invocation's completion rejects as superseded. -/
theorem c1_latest_call_only_current_delivered_witness :
    latestWF latestInit [.issue 1 "x", .issue 2 "x"] = true ∧
    (latestRun latestInit [.issue 1 "x", .issue 2 "x"]).captured 1 = some ("x", 1) ∧
    (latestRun latestInit [.issue 1 "x", .issue 2 "x"]).outcomes 1 = none ∧
    1 ≠ (latestRun latestInit [.issue 1 "x", .issue 2 "x"]).latestCallCounters "x" ∧
    (completeLatest (latestRun latestInit [.issue 1 "x", .issue 2 "x"]) 1 false).outcomes 1 =
      some LatestOutcome.latestCallCancelled := by
  refine ⟨by decide, by decide, by decide, by decide, ?_⟩
  exact (c1_latest_call_only_current_delivered [.issue 1 "x", .issue 2 "x"] (by decide)
    1 "x" 1 false (by decide) (by decide)).2 (by decide)

/-- C2: `cancelLatest(key)` bumps the slot's generation counter without registering
any new call, and every in-flight `callLatest` invocation on that key is then settled
as superseded (`LatestCallCancelledError`) whenever its underlying call completes,
rather than delivering its result. -/
theorem c2_cancelLatest_supersedes (evs1 : List LatestEvent)
    (hwf1 : latestWF latestInit evs1 = true) (id : Nat) (key : String) (gen : Nat)
    (hc : (latestRun latestInit evs1).captured id = some (key, gen))
    (ho : (latestRun latestInit evs1).outcomes id = none) :
    (cancelLatest (latestRun latestInit evs1) key).latestCallCounters key =
      (latestRun latestInit evs1).latestCallCounters key + 1 ∧
    (cancelLatest (latestRun latestInit evs1) key).captured =
      (latestRun latestInit evs1).captured ∧
    (∀ (evs2 : List LatestEvent) (ok : Bool),
      latestWF (cancelLatest (latestRun latestInit evs1) key) evs2 = true →
      (latestRun (cancelLatest (latestRun latestInit evs1) key) evs2).outcomes id = none →
      (completeLatest
          (latestRun (cancelLatest (latestRun latestInit evs1) key) evs2) id ok).outcomes id =
        some LatestOutcome.latestCallCancelled) := by
  have hinv := latestRun_inv evs1 latestInit latestInv_init hwf1 id key gen hc ho
  set s := latestRun latestInit evs1 with hs
  refine ⟨by simp [cancelLatest, setFn], rfl, ?_⟩
  intro evs2 ok hwf2 ho2
  have hc1 : (cancelLatest s key).captured id = some (key, gen) := hc
  have hc2 : (latestRun (cancelLatest s key) evs2).captured id = some (key, gen) :=
    latestRun_captured evs2 _ hwf2 hc1
  have hcnt1 : (cancelLatest s key).latestCallCounters key =
      s.latestCallCounters key + 1 := by
    simp [cancelLatest, setFn]
  have hle : (cancelLatest s key).latestCallCounters key ≤
      (latestRun (cancelLatest s key) evs2).latestCallCounters key :=
    latestRun_counter_le evs2 _ key
  have hgen_le : gen ≤ s.latestCallCounters key := hinv.1
  have hne : gen ≠ (latestRun (cancelLatest s key) evs2).latestCallCounters key := by
    omega
  have hab1 : (cancelLatest s key).aborted id = true := by
    show abortStored s key id = true
    by_cases hcur : gen = s.latestCallCounters key
    · exact abortStored_stored (hinv.2.1 hcur)
    · exact abortStored_mono (hinv.2.2 hcur)
  have hab2 : (latestRun (cancelLatest s key) evs2).aborted id = true :=
    latestRun_aborted evs2 _ hab1
  have hout : (completeLatest (latestRun (cancelLatest s key) evs2) id ok).outcomes id =
      some (if ok then
              (if (latestRun (cancelLatest s key) evs2).latestCallCounters key = gen then
                 LatestOutcome.delivered
               else LatestOutcome.latestCallCancelled)
            else
              (if (latestRun (cancelLatest s key) evs2).aborted id ∧
                  (latestRun (cancelLatest s key) evs2).latestCallCounters key ≠ gen then
                 LatestOutcome.latestCallCancelled
               else LatestOutcome.userError)) := by
    simp only [completeLatest, hc2, ho2]
    simp [setFn]
  rw [hout]
  have hne' : ¬(latestRun (cancelLatest s key) evs2).latestCallCounters key = gen :=
    fun h => hne h.symm
  cases ok with
  | true => simp [hne']
  | false => simp [hab2, hne']

/-- Witness for `c2_cancelLatest_supersedes`: one `callLatest` on slot `"x"`,
cancelled before its underlying call completes. -/
theorem c2_cancelLatest_supersedes_witness :
    latestWF latestInit [.issue 1 "x"] = true ∧
    (latestRun latestInit [.issue 1 "x"]).captured 1 = some ("x", 1) ∧
    (latestRun latestInit [.issue 1 "x"]).outcomes 1 = none ∧
    (completeLatest
        (latestRun (cancelLatest (latestRun latestInit [.issue 1 "x"]) "x") [])
        1 false).outcomes 1 = some LatestOutcome.latestCallCancelled := by
  refine ⟨by decide, by decide, by decide, ?_⟩
  exact (c2_cancelLatest_supersedes [.issue 1 "x"] (by decide) 1 "x" 1 (by decide)
    (by decide)).2.2 [] false (by decide) (by decide)

/-! ### Call registry (`PyWorkerClient.call` / `handleMessage` / timeouts) -/

/-- How a registered call's promise settles. -/
inductive CallOutcome where
  | resolved
  | rpcError
  | timeoutError
  | abortError
deriving DecidableEq

/-- The pending-call registry of `PyWorkerClient`: `pending` maps a correlation id to
whether a timeout timer is armed for it; `nextId` is the id allocator; `settled` logs
how each settled promise was resolved (a promise settles at most once). -/
structure RegistryState where
  pending : Nat → Option Bool
  nextId : Nat
  settled : Nat → Option CallOutcome

/-- `call` (`PyWorkerClient`): allocate `id := nextId`, bump `nextId`, and register
the pending call, arming a timer exactly when `timeoutMs` was given. -/
def callRegister (s : RegistryState) (hasTimeout : Bool) : RegistryState :=
  { pending := setFn s.pending s.nextId (some hasTimeout)
    nextId := s.nextId + 1
    settled := s.settled }

/-- The timeout callback of `call`: `this.pending.delete(id)` and reject with the
timeout error.  The callback can only run while the timer is armed — `clearPending`
cancels it whenever the entry is removed — which is the `some true` guard. -/
def fireTimeout (s : RegistryState) (id : Nat) : RegistryState :=
  match s.pending id with
  | some true =>
      { s with
        pending := setFn s.pending id none
        settled := setFn s.settled id (some CallOutcome.timeoutError) }
  | _ => s

/-- The `onAbort` listener of `call`: `clearPending(id)` and reject with `AbortError`;
rejecting an already-settled promise is a no-op. -/
def fireAbort (s : RegistryState) (id : Nat) : RegistryState :=
  match s.pending id with
  | some _ =>
      { s with
        pending := setFn s.pending id none
        settled := setFn s.settled id (some CallOutcome.abortError) }
  | none => s

/-- `handleMessage` (`PyWorkerClient`): a response whose correlation id has no pending
entry returns immediately (dropped silently); otherwise `clearPending` removes the
entry and cancels its timer, and the promise resolves (`ok`) or rejects with the
`RpcError`. -/
def handleMessage (s : RegistryState) (id : Nat) (ok : Bool) : RegistryState :=
  match s.pending id with
  | none => s
  | some _ =>
      { s with
        pending := setFn s.pending id none
        settled := setFn s.settled id
          (some (if ok then CallOutcome.resolved else CallOutcome.rpcError)) }

/-- The events that drive the registry of one client. -/
inductive RegistryEvent where
  | register (hasTimeout : Bool)
  | timeout (id : Nat)
  | message (id : Nat) (ok : Bool)
  | abort (id : Nat)
deriving DecidableEq

def registryStep (s : RegistryState) : RegistryEvent → RegistryState
  | .register hasTimeout => callRegister s hasTimeout
  | .timeout id => fireTimeout s id
  | .message id ok => handleMessage s id ok
  | .abort id => fireAbort s id

def registryRun (s : RegistryState) : List RegistryEvent → RegistryState
  | [] => s
  | e :: es => registryRun (registryStep s e) es

/-- A fresh `PyWorkerClient` registry: `nextId = 1`, nothing pending or settled. -/
def registryInit : RegistryState := ⟨fun _ => none, 1, fun _ => none⟩

/-- Ids at or above the allocator are never pending. -/
def RegistryBound (s : RegistryState) : Prop :=
  ∀ id, s.nextId ≤ id → s.pending id = none


theorem fireTimeout_none {s : RegistryState} {id0 : Nat} (h : s.pending id0 = none) :
    fireTimeout s id0 = s := by
  simp [fireTimeout, h]

theorem fireTimeout_nextId (s : RegistryState) (id0 : Nat) :
    (fireTimeout s id0).nextId = s.nextId := by
  simp only [fireTimeout]
  cases hp : s.pending id0 with
  | none => rfl
  | some b => cases b <;> rfl

theorem fireTimeout_pending_ne (s : RegistryState) (id0 : Nat) {i : Nat} (hi : i ≠ id0) :
    (fireTimeout s id0).pending i = s.pending i := by
  simp only [fireTimeout]
  cases hp : s.pending id0 with
  | none => rfl
  | some b =>
    cases b with
    | false => rfl
    | true => exact setFn_ne _ _ _ hi

theorem fireTimeout_settled_ne (s : RegistryState) (id0 : Nat) {i : Nat} (hi : i ≠ id0) :
    (fireTimeout s id0).settled i = s.settled i := by
  simp only [fireTimeout]
  cases hp : s.pending id0 with
  | none => rfl
  | some b =>
    cases b with
    | false => rfl
    | true => exact setFn_ne _ _ _ hi

theorem fireTimeout_armed {s : RegistryState} {id0 : Nat} (h : s.pending id0 = some true) :
    (fireTimeout s id0).pending id0 = none ∧
      (fireTimeout s id0).settled id0 = some CallOutcome.timeoutError := by
  simp only [fireTimeout, h]
  exact ⟨setFn_self _ _ _, setFn_self _ _ _⟩

theorem handleMessage_none {s : RegistryState} {id0 : Nat} (ok : Bool)
    (h : s.pending id0 = none) : handleMessage s id0 ok = s := by
  simp [handleMessage, h]

theorem handleMessage_nextId (s : RegistryState) (id0 : Nat) (ok : Bool) :
    (handleMessage s id0 ok).nextId = s.nextId := by
  simp only [handleMessage]
  cases hp : s.pending id0 <;> rfl

theorem handleMessage_pending_ne (s : RegistryState) (id0 : Nat) (ok : Bool) {i : Nat}
    (hi : i ≠ id0) : (handleMessage s id0 ok).pending i = s.pending i := by
  simp only [handleMessage]
  cases hp : s.pending id0 with
  | none => rfl
  | some b => exact setFn_ne _ _ _ hi

theorem handleMessage_settled_ne (s : RegistryState) (id0 : Nat) (ok : Bool) {i : Nat}
    (hi : i ≠ id0) : (handleMessage s id0 ok).settled i = s.settled i := by
  simp only [handleMessage]
  cases hp : s.pending id0 with
  | none => rfl
  | some b => exact setFn_ne _ _ _ hi

theorem fireAbort_nextId (s : RegistryState) (id0 : Nat) :
    (fireAbort s id0).nextId = s.nextId := by
  simp only [fireAbort]
  cases hp : s.pending id0 <;> rfl

theorem fireAbort_pending_ne (s : RegistryState) (id0 : Nat) {i : Nat} (hi : i ≠ id0) :
    (fireAbort s id0).pending i = s.pending i := by
  simp only [fireAbort]
  cases hp : s.pending id0 with
  | none => rfl
  | some b => exact setFn_ne _ _ _ hi

theorem fireAbort_settled_ne (s : RegistryState) (id0 : Nat) {i : Nat} (hi : i ≠ id0) :
    (fireAbort s id0).settled i = s.settled i := by
  simp only [fireAbort]
  cases hp : s.pending id0 with
  | none => rfl
  | some b => exact setFn_ne _ _ _ hi

theorem fireTimeout_pending_eq_none (s : RegistryState) (id0 i : Nat)
    (h : s.pending i = none) : (fireTimeout s id0).pending i = none := by
  by_cases hi : i = id0
  · subst hi
    rw [fireTimeout_none h]
    exact h
  · rw [fireTimeout_pending_ne s id0 hi]
    exact h

theorem registryBound_init : RegistryBound registryInit := fun _ _ => rfl

theorem registryStep_bound {s : RegistryState} (hb : RegistryBound s)
    (e : RegistryEvent) : RegistryBound (registryStep s e) := by
  cases e with
  | register hasTimeout =>
    intro id hid
    have hid' : s.nextId + 1 ≤ id := hid
    show setFn s.pending s.nextId (some hasTimeout) id = none
    rw [setFn_ne _ _ _ (by omega : id ≠ s.nextId)]
    exact hb id (by omega)
  | timeout id0 =>
    intro id hid
    have hid' : s.nextId ≤ id := by
      rw [show (registryStep s (.timeout id0)).nextId = s.nextId from
        fireTimeout_nextId s id0] at hid
      exact hid
    have hnone : s.pending id = none := hb id hid'
    exact fireTimeout_pending_eq_none s id0 id hnone
  | message id0 ok =>
    intro id hid
    have hid' : s.nextId ≤ id := by
      rw [show (registryStep s (.message id0 ok)).nextId = s.nextId from
        handleMessage_nextId s id0 ok] at hid
      exact hid
    have hnone : s.pending id = none := hb id hid'
    by_cases hi : id = id0
    · subst hi
      show (handleMessage s id ok).pending id = none
      rw [handleMessage_none ok hnone]
      exact hnone
    · show (handleMessage s id0 ok).pending id = none
      rw [handleMessage_pending_ne s id0 ok hi]
      exact hnone
  | abort id0 =>
    intro id hid
    have hid' : s.nextId ≤ id := by
      rw [show (registryStep s (.abort id0)).nextId = s.nextId from
        fireAbort_nextId s id0] at hid
      exact hid
    have hnone : s.pending id = none := hb id hid'
    by_cases hi : id = id0
    · subst hi
      show (fireAbort s id).pending id = none
      rw [show fireAbort s id = s from by simp [fireAbort, hnone]]
      exact hnone
    · show (fireAbort s id0).pending id = none
      rw [fireAbort_pending_ne s id0 hi]
      exact hnone

theorem registryRun_bound : ∀ (evs : List RegistryEvent) (s : RegistryState),
    RegistryBound s → RegistryBound (registryRun s evs) := by
  intro evs
  induction evs with
  | nil => intro s h; exact h
  | cons e es ih => intro s h; exact ih _ (registryStep_bound h e)

/-- Once an id is unregistered and below the allocator, no later event re-registers
it, makes it pending again, or changes how it settled: late or unmatched responses
for it are dropped silently. -/
theorem registry_dropped : ∀ (evs : List RegistryEvent) (s : RegistryState) (id : Nat),
    id < s.nextId → s.pending id = none →
    id < (registryRun s evs).nextId ∧ (registryRun s evs).pending id = none ∧
      (registryRun s evs).settled id = s.settled id := by
  intro evs
  induction evs with
  | nil => intro s id h1 h2; exact ⟨h1, h2, rfl⟩
  | cons e es ih =>
    intro s id h1 h2
    have hstep : id < (registryStep s e).nextId ∧ (registryStep s e).pending id = none ∧
        (registryStep s e).settled id = s.settled id := by
      cases e with
      | register hasTimeout =>
        refine ⟨?_, ?_, rfl⟩
        · show id < s.nextId + 1
          omega
        · show setFn s.pending s.nextId (some hasTimeout) id = none
          rw [setFn_ne _ _ _ (by omega : id ≠ s.nextId)]
          exact h2
      | timeout id0 =>
        refine ⟨?_, fireTimeout_pending_eq_none s id0 id h2, ?_⟩
        · show id < (fireTimeout s id0).nextId
          rw [fireTimeout_nextId]
          exact h1
        · show (fireTimeout s id0).settled id = s.settled id
          by_cases hi : id = id0
          · subst hi
            rw [fireTimeout_none h2]
          · exact fireTimeout_settled_ne s id0 hi
      | message id0 ok =>
        by_cases hi : id = id0
        · subst hi
          have heq : registryStep s (.message id ok) = s := handleMessage_none ok h2
          rw [heq]
          exact ⟨h1, h2, rfl⟩
        · refine ⟨?_, ?_, ?_⟩
          · show id < (handleMessage s id0 ok).nextId
            rw [handleMessage_nextId]
            exact h1
          · show (handleMessage s id0 ok).pending id = none
            rw [handleMessage_pending_ne s id0 ok hi]
            exact h2
          · exact handleMessage_settled_ne s id0 ok hi
      | abort id0 =>
        by_cases hi : id = id0
        · subst hi
          have heq : registryStep s (.abort id) = s := by simp [registryStep, fireAbort, h2]
          rw [heq]
          exact ⟨h1, h2, rfl⟩
        · refine ⟨?_, ?_, ?_⟩
          · show id < (fireAbort s id0).nextId
            rw [fireAbort_nextId]
            exact h1
          · show (fireAbort s id0).pending id = none
            rw [fireAbort_pending_ne s id0 hi]
            exact h2
          · exact fireAbort_settled_ne s id0 hi
    obtain ⟨g1, g2, g3⟩ := ih (registryStep s e) id hstep.1 hstep.2.1
    exact ⟨g1, g2, g3.trans hstep.2.2⟩

/-- C6: for every call registered with a timeout, if the timer expires while the call
is still pending, the call is removed from the registry and its promise rejects with
the timeout error; thereafter no event resolves, rejects or re-registers that id — a
late response for it, like any response with no matching pending entry, is dropped
silently (`handleMessage` leaves the registry untouched). -/
theorem c6_timeout_and_unmatched_drop (evs : List RegistryEvent) (id : Nat) :
    ((registryRun registryInit evs).pending id = some true →
      (fireTimeout (registryRun registryInit evs) id).pending id = none ∧
      (fireTimeout (registryRun registryInit evs) id).settled id =
        some CallOutcome.timeoutError ∧
      ∀ evs2 : List RegistryEvent,
        (registryRun (fireTimeout (registryRun registryInit evs) id) evs2).pending id =
          none ∧
        (registryRun (fireTimeout (registryRun registryInit evs) id) evs2).settled id =
          some CallOutcome.timeoutError) ∧
    ((registryRun registryInit evs).pending id = none →
      ∀ ok : Bool, handleMessage (registryRun registryInit evs) id ok =
        registryRun registryInit evs) := by
  set s := registryRun registryInit evs with hs
  constructor
  · intro harmed
    have hb : RegistryBound s := registryRun_bound evs registryInit registryBound_init
    have hlt : id < s.nextId := by
      by_contra h
      push_neg at h
      rw [hb id h] at harmed
      cases harmed
    obtain ⟨hp, hset⟩ := fireTimeout_armed harmed
    refine ⟨hp, hset, ?_⟩
    intro evs2
    have hlt' : id < (fireTimeout s id).nextId := by
      rw [fireTimeout_nextId]
      exact hlt
    obtain ⟨_, g2, g3⟩ := registry_dropped evs2 (fireTimeout s id) id hlt' hp
    exact ⟨g2, g3.trans hset⟩
  · intro hnone ok
    exact handleMessage_none ok hnone

/-- Witness for `c6_timeout_and_unmatched_drop`: one registered call with a timer
whose timeout fires and whose late response is dropped, plus an unmatched response
for an unregistered id. -/
theorem c6_timeout_and_unmatched_drop_witness :
    (registryRun registryInit [.register true]).pending 1 = some true ∧
    (registryRun (fireTimeout (registryRun registryInit [.register true]) 1)
        [.message 1 true]).settled 1 = some CallOutcome.timeoutError ∧
    (registryRun registryInit [.register true]).pending 5 = none ∧
    handleMessage (registryRun registryInit [.register true]) 5 true =
      registryRun registryInit [.register true] := by
  refine ⟨by decide, ?_, by decide, ?_⟩
  · exact (((c6_timeout_and_unmatched_drop [.register true] 1).1
      (by decide)).2.2 [.message 1 true]).2
  · exact (c6_timeout_and_unmatched_drop [.register true] 5).2 (by decide) true

/-! ### Slider debouncer (`src/hooks/useSliderCommit.ts`) -/

/-- Default `throttleMs` of `useSliderCommit`. -/
def throttleMs : Nat := 200

/-- Default `idleFinalMs` of `useSliderCommit`. -/
def idleFinalMs : Nat := 650

inductive EmitKind where
  | fast
  | final
deriving DecidableEq

/-- The hook's refs plus the log of emitted updates `(time, kind, value)`:
`dragging`/`lastFastAt`/`latest` mirror `draggingRef`/`lastFastAtRef`
(a `performance.now()` timestamp, initially 0)/`latestValueRef`; the two timers hold
their absolute expiry times. -/
structure SliderState where
  dragging : Bool
  lastFastAt : Nat
  idleTimer : Option Nat
  trailingTimer : Option Nat
  latest : Int
  emits : List (Nat × EmitKind × Int)
deriving DecidableEq

/-- The trailing `setTimeout` callback of `emitFastThrottled`: set `lastFastAt` to the
fire time and emit a fast update carrying `latestValueRef`. -/
def fireTrailing (t : Nat) (s : SliderState) : SliderState :=
  { s with lastFastAt := t, trailingTimer := none,
           emits := s.emits ++ [(t, EmitKind.fast, s.latest)] }

/-- The idle `setTimeout` callback of `scheduleIdleFinal`: emit a final update unless
a drag is still in progress. -/
def fireIdle (t : Nat) (s : SliderState) : SliderState :=
  { s with idleTimer := none,
           emits := if s.dragging then s.emits
                    else s.emits ++ [(t, EmitKind.final, s.latest)] }

/-- Fire, in expiry order, every timer due at or before time `t`; firing a timer never
schedules another, and on a tie the trailing timer fires first. -/
def advanceTo (t : Nat) (s : SliderState) : SliderState :=
  match s.trailingTimer, s.idleTimer with
  | some tt, some it =>
    if tt ≤ t then
      if it ≤ t then
        (if tt ≤ it then fireIdle it (fireTrailing tt s)
         else fireTrailing tt (fireIdle it s))
      else fireTrailing tt s
    else if it ≤ t then fireIdle it s else s
  | some tt, none => if tt ≤ t then fireTrailing tt s else s
  | none, some it => if it ≤ t then fireIdle it s else s
  | none, none => s

inductive SliderEvent where
  | pointerDown
  | change (v : Int)
  | pointerUp
  | blur
deriving DecidableEq

/-- The `useSliderCommit` handlers.  `onChange` records the latest value, while
dragging runs `emitFastThrottled` (immediate fast emit when the throttle window has
elapsed, otherwise a trailing timer at `t + (throttleMs - elapsed)`; Nat subtraction
is the source's `Math.max(0, ...)`), and always re-arms the idle-final timer.
`onPointerUp` (only while dragging) and `onBlur` clear both timers and emit the final
update with the latest value. -/
def sliderHandle (t : Nat) (s : SliderState) : SliderEvent → SliderState
  | .pointerDown => { s with dragging := true, idleTimer := none }
  | .change v =>
    let s1 := { s with latest := v }
    let s2 :=
      if s1.dragging then
        let elapsed := t - s1.lastFastAt
        if elapsed ≥ throttleMs then
          { s1 with lastFastAt := t, trailingTimer := none,
                    emits := s1.emits ++ [(t, EmitKind.fast, v)] }
        else
          { s1 with trailingTimer := some (t + (throttleMs - elapsed)) }
      else s1
    { s2 with idleTimer := some (t + idleFinalMs) }
  | .pointerUp =>
    if s.dragging then
      { s with dragging := false, trailingTimer := none, idleTimer := none,
               emits := s.emits ++ [(t, EmitKind.final, s.latest)] }
    else s
  | .blur =>
    { s with dragging := false, trailingTimer := none, idleTimer := none,
             emits := s.emits ++ [(t, EmitKind.final, s.latest)] }

/-- Fire whatever timers remain, in expiry order, once no further input arrives. -/
def flushTimers (s : SliderState) : SliderState :=
  match s.trailingTimer, s.idleTimer with
  | some tt, some it =>
    if tt ≤ it then fireIdle it (fireTrailing tt s)
    else fireTrailing tt (fireIdle it s)
  | some tt, none => fireTrailing tt s
  | none, some it => fireIdle it s
  | none, none => s

/-- Run the hook over timestamped input events (nondecreasing times): before each
event the due timers fire, and after the last event the surviving timers fire. -/
def sliderRun (init : SliderState) (evs : List (Nat × SliderEvent)) : SliderState :=
  flushTimers (evs.foldl (fun s te => sliderHandle te.1 (advanceTo te.1 s) te.2) init)

def sliderInit (v : Int) : SliderState := ⟨false, 0, none, none, v, []⟩

/-- The scenario of claim C7: a drag starting at clock time `B = 1000` (the
`performance.now()` origin offset), value changes `v 0 … v 10` at `B + 10 * i` for
`i = 0 … 10` while dragging, and the input settling by pointer-up at `B + 150`. -/
def c7Scenario (v : Nat → Int) : List (Nat × SliderEvent) :=
  [(1000, .pointerDown),
   (1000, .change (v 0)), (1010, .change (v 1)), (1020, .change (v 2)),
   (1030, .change (v 3)), (1040, .change (v 4)), (1050, .change (v 5)),
   (1060, .change (v 6)), (1070, .change (v 7)), (1080, .change (v 8)),
   (1090, .change (v 9)), (1100, .change (v 10)),
   (1150, .pointerUp)]

set_option maxRecDepth 4000 in
/-- C7: in the claim's scenario — changes every 10ms for 100ms while dragging, with
the 200ms throttle window — at most one fast update is emitted within the throttle
window (exactly one is emitted in total), and once the input settles exactly one
final update is emitted, carrying the last value `v 10` (the value at `t = 100`). -/
theorem c7_slider_debounce (v : Nat → Int) :
    ((sliderRun (sliderInit (v 0)) (c7Scenario v)).emits.filter
        (fun e => e.2.1 == EmitKind.fast)).length ≤ 1 ∧
    (sliderRun (sliderInit (v 0)) (c7Scenario v)).emits.filter
        (fun e => e.2.1 == EmitKind.final) = [(1150, EmitKind.final, v 10)] := by
  have h1 : sliderHandle 1000 (advanceTo 1000 (sliderInit (v 0)))
      SliderEvent.pointerDown = ⟨true, 0, none, none, v 0, []⟩ := rfl
  have h2 : sliderHandle 1000
      (advanceTo 1000 (⟨true, 0, none, none, v 0, []⟩ : SliderState))
      (SliderEvent.change (v 0)) =
      ⟨true, 1000, some 1650, none, v 0, [(1000, EmitKind.fast, v 0)]⟩ := rfl
  have h3 : sliderHandle 1010
      (advanceTo 1010 (⟨true, 1000, some 1650, none, v 0, [(1000, EmitKind.fast, v 0)]⟩ : SliderState))
      (SliderEvent.change (v 1)) =
      ⟨true, 1000, some 1660, some 1200, v 1, [(1000, EmitKind.fast, v 0)]⟩ := rfl
  have h4 : sliderHandle 1020
      (advanceTo 1020 (⟨true, 1000, some 1660, some 1200, v 1, [(1000, EmitKind.fast, v 0)]⟩ : SliderState))
      (SliderEvent.change (v 2)) =
      ⟨true, 1000, some 1670, some 1200, v 2, [(1000, EmitKind.fast, v 0)]⟩ := rfl
  have h5 : sliderHandle 1030
      (advanceTo 1030 (⟨true, 1000, some 1670, some 1200, v 2, [(1000, EmitKind.fast, v 0)]⟩ : SliderState))
      (SliderEvent.change (v 3)) =
      ⟨true, 1000, some 1680, some 1200, v 3, [(1000, EmitKind.fast, v 0)]⟩ := rfl
  have h6 : sliderHandle 1040
      (advanceTo 1040 (⟨true, 1000, some 1680, some 1200, v 3, [(1000, EmitKind.fast, v 0)]⟩ : SliderState))
      (SliderEvent.change (v 4)) =
      ⟨true, 1000, some 1690, some 1200, v 4, [(1000, EmitKind.fast, v 0)]⟩ := rfl
  have h7 : sliderHandle 1050
      (advanceTo 1050 (⟨true, 1000, some 1690, some 1200, v 4, [(1000, EmitKind.fast, v 0)]⟩ : SliderState))
      (SliderEvent.change (v 5)) =
      ⟨true, 1000, some 1700, some 1200, v 5, [(1000, EmitKind.fast, v 0)]⟩ := rfl
  have h8 : sliderHandle 1060
      (advanceTo 1060 (⟨true, 1000, some 1700, some 1200, v 5, [(1000, EmitKind.fast, v 0)]⟩ : SliderState))
      (SliderEvent.change (v 6)) =
      ⟨true, 1000, some 1710, some 1200, v 6, [(1000, EmitKind.fast, v 0)]⟩ := rfl
  have h9 : sliderHandle 1070
      (advanceTo 1070 (⟨true, 1000, some 1710, some 1200, v 6, [(1000, EmitKind.fast, v 0)]⟩ : SliderState))
      (SliderEvent.change (v 7)) =
      ⟨true, 1000, some 1720, some 1200, v 7, [(1000, EmitKind.fast, v 0)]⟩ := rfl
  have h10 : sliderHandle 1080
      (advanceTo 1080 (⟨true, 1000, some 1720, some 1200, v 7, [(1000, EmitKind.fast, v 0)]⟩ : SliderState))
      (SliderEvent.change (v 8)) =
      ⟨true, 1000, some 1730, some 1200, v 8, [(1000, EmitKind.fast, v 0)]⟩ := rfl
  have h11 : sliderHandle 1090
      (advanceTo 1090 (⟨true, 1000, some 1730, some 1200, v 8, [(1000, EmitKind.fast, v 0)]⟩ : SliderState))
      (SliderEvent.change (v 9)) =
      ⟨true, 1000, some 1740, some 1200, v 9, [(1000, EmitKind.fast, v 0)]⟩ := rfl
  have h12 : sliderHandle 1100
      (advanceTo 1100 (⟨true, 1000, some 1740, some 1200, v 9, [(1000, EmitKind.fast, v 0)]⟩ : SliderState))
      (SliderEvent.change (v 10)) =
      ⟨true, 1000, some 1750, some 1200, v 10, [(1000, EmitKind.fast, v 0)]⟩ := rfl
  have h13 : sliderHandle 1150
      (advanceTo 1150 (⟨true, 1000, some 1750, some 1200, v 10, [(1000, EmitKind.fast, v 0)]⟩ : SliderState))
      SliderEvent.pointerUp =
      ⟨false, 1000, none, none, v 10, [(1000, EmitKind.fast, v 0), (1150, EmitKind.final, v 10)]⟩ := rfl
  have hrun : sliderRun (sliderInit (v 0)) (c7Scenario v) =
      ⟨false, 1000, none, none, v 10, [(1000, EmitKind.fast, v 0), (1150, EmitKind.final, v 10)]⟩ := by
    simp only [sliderRun, c7Scenario, List.foldl]
    rw [h1, h2, h3, h4, h5, h6, h7, h8, h9, h10, h11, h12, h13]
    rfl
  rw [hrun]
  exact ⟨le_rfl, rfl⟩

/-! ### Path normalization (worker `normalizeRelativePath` / `userlib.ingest`) -/

/-- JavaScript `String.prototype.split` on one separator character, on strings
modelled as character lists: `splitOnChar sep` cuts at every occurrence of `sep`,
keeping empty chunks (`split('/')` of `"a//b"` is `["a", "", "b"]`). -/
def splitOnChar (sep : Char) : List Char → List (List Char)
  | [] => [[]]
  | c :: cs =>
    if c = sep then [] :: splitOnChar sep cs
    else
      match splitOnChar sep cs with
      | chunk :: rest => (c :: chunk) :: rest
      | [] => [[c]]

/-- JavaScript `String.prototype.trim`: drop whitespace from both ends. -/
def trimChars (cs : List Char) : List Char :=
  ((cs.dropWhile Char.isWhitespace).reverse.dropWhile Char.isWhitespace).reverse

/-- The segment pipeline of `normalizeRelativePath` (worker): replace every backslash
with a slash, split on slashes, trim each segment, and keep only segments that are
nonempty and neither `.` nor `..`. -/
def normalizeSegments (value : List Char) : List (List Char) :=
  ((splitOnChar '/' (value.map fun c => if c = '\\' then '/' else c)).map trimChars).filter
    fun segment => decide (0 < segment.length ∧ segment ≠ ['.'] ∧ segment ≠ ['.', '.'])

/-- `Array.prototype.join('/')`. -/
def joinSlash : List (List Char) → List Char
  | [] => []
  | [s] => s
  | s :: rest => s ++ '/' :: joinSlash rest

/-- `normalizeRelativePath` (worker): the surviving segments joined with `/`, or the
generated fallback file name `file_${Date.now()}.pnt` when every segment was filtered
out; `now` stands for `Date.now()`. -/
def normalizeRelativePath (now : Nat) (value : List Char) : List Char :=
  if normalizeSegments value = [] then ("file_" ++ toString now ++ ".pnt").data
  else joinSlash (normalizeSegments value)

/-- The target path `${mountPath}/${relativePath}` at which the `.pnt` branch of
`userlib.ingest` writes the file, with `mountPath = "/userlib"`. -/
def ingestTargetPath (now : Nat) (value : List Char) : List Char :=
  "/userlib/".data ++ normalizeRelativePath now value

theorem splitOnChar_no_sep {sep : Char} :
    ∀ {chunk : List Char} {l : List Char}, chunk ∈ splitOnChar sep l → sep ∉ chunk := by
  intro chunk l
  induction l generalizing chunk with
  | nil =>
    intro h
    simp only [splitOnChar, List.mem_singleton] at h
    subst h
    exact List.not_mem_nil sep
  | cons c cs ih =>
    intro h
    simp only [splitOnChar] at h
    by_cases hc : c = sep
    · rw [if_pos hc] at h
      rcases List.mem_cons.mp h with h1 | h1
      · subst h1
        exact List.not_mem_nil sep
      · exact ih h1
    · rw [if_neg hc] at h
      cases hsp : splitOnChar sep cs with
      | nil =>
        rw [hsp] at h
        simp only [List.mem_singleton] at h
        subst h
        intro hbad
        rcases List.mem_cons.mp hbad with h2 | h2
        · exact hc h2.symm
        · exact List.not_mem_nil sep h2
      | cons chunk0 rest =>
        rw [hsp] at h
        rcases List.mem_cons.mp h with h1 | h1
        · subst h1
          intro hbad
          rcases List.mem_cons.mp hbad with h2 | h2
          · exact hc h2.symm
          · exact ih (hsp ▸ List.mem_cons_self chunk0 rest) h2
        · exact ih (hsp ▸ List.mem_cons_of_mem chunk0 h1)

theorem splitOnChar_chars_subset {sep : Char} :
    ∀ {chunk : List Char} {l : List Char}, chunk ∈ splitOnChar sep l →
      ∀ c ∈ chunk, c ∈ l := by
  intro chunk l
  induction l generalizing chunk with
  | nil =>
    intro h c hc
    simp only [splitOnChar, List.mem_singleton] at h
    subst h
    exact absurd hc (List.not_mem_nil c)
  | cons a cs ih =>
    intro h c hc
    simp only [splitOnChar] at h
    by_cases ha : a = sep
    · rw [if_pos ha] at h
      rcases List.mem_cons.mp h with h1 | h1
      · subst h1
        exact absurd hc (List.not_mem_nil c)
      · exact List.mem_cons_of_mem _ (ih h1 c hc)
    · rw [if_neg ha] at h
      cases hsp : splitOnChar sep cs with
      | nil =>
        rw [hsp] at h
        simp only [List.mem_singleton] at h
        subst h
        simp only [List.mem_singleton] at hc
        subst hc
        exact List.mem_cons_self _ _
      | cons chunk0 rest =>
        rw [hsp] at h
        rcases List.mem_cons.mp h with h1 | h1
        · subst h1
          rcases List.mem_cons.mp hc with h2 | h2
          · subst h2
            exact List.mem_cons_self _ _
          · exact List.mem_cons_of_mem _
              (ih (hsp ▸ List.mem_cons_self chunk0 rest) c h2)
        · exact List.mem_cons_of_mem _
            (ih (hsp ▸ List.mem_cons_of_mem chunk0 h1) c hc)

theorem trimChars_subset {cs : List Char} {c : Char} (h : c ∈ trimChars cs) : c ∈ cs := by
  unfold trimChars at h
  rw [List.mem_reverse] at h
  have h1 := (List.dropWhile_sublist Char.isWhitespace).subset h
  rw [List.mem_reverse] at h1
  exact (List.dropWhile_sublist Char.isWhitespace).subset h1

theorem splitOnChar_single {sep : Char} :
    ∀ {s : List Char}, sep ∉ s → splitOnChar sep s = [s] := by
  intro s
  induction s with
  | nil => intro _; rfl
  | cons c cs ih =>
    intro h
    have hc : c ≠ sep := fun he => h (he ▸ List.mem_cons_self c cs)
    have hcs : sep ∉ cs := fun hx => h (List.mem_cons_of_mem c hx)
    simp only [splitOnChar]
    rw [if_neg hc, ih hcs]

theorem splitOnChar_append_sep {sep : Char} :
    ∀ {a : List Char} (b : List Char), sep ∉ a →
      splitOnChar sep (a ++ sep :: b) = a :: splitOnChar sep b := by
  intro a
  induction a with
  | nil =>
    intro b _
    simp [splitOnChar]
  | cons c a' ih =>
    intro b h
    have hc : c ≠ sep := fun he => h (he ▸ List.mem_cons_self c a')
    have ha : sep ∉ a' := fun hx => h (List.mem_cons_of_mem c hx)
    simp only [List.cons_append, splitOnChar]
    rw [if_neg hc, show List.append a' (sep :: b) = a' ++ sep :: b from rfl, ih b ha]

theorem splitOnChar_joinSlash :
    ∀ {segs : List (List Char)}, segs ≠ [] → (∀ s ∈ segs, '/' ∉ s) →
      splitOnChar '/' (joinSlash segs) = segs := by
  intro segs
  induction segs with
  | nil => intro h _; exact absurd rfl h
  | cons s rest ih =>
    intro _ hall
    cases rest with
    | nil =>
      show splitOnChar '/' (joinSlash [s]) = [s]
      simp only [joinSlash]
      exact splitOnChar_single (hall s (List.mem_cons_self s []))
    | cons r rs =>
      have hjoin : joinSlash (s :: r :: rs) = s ++ '/' :: joinSlash (r :: rs) := rfl
      rw [hjoin, splitOnChar_append_sep _ (hall s (List.mem_cons_self s _))]
      rw [ih (by simp) fun t ht => hall t (List.mem_cons_of_mem s ht)]

/-- C10: `normalizeRelativePath` produces a relative path with no `..`, `.` or empty
segments and no backslashes (an all-filtered input maps to the generated fallback
name), so the target path of every file written by the `.pnt` branch of
`userlib.ingest` splits as `/userlib/<clean segments>` — strictly under the
`/userlib` mount root. -/
theorem c10_ingest_path_stays_under_userlib (now : Nat) (value : List Char) :
    (∀ segment ∈ normalizeSegments value,
      segment ≠ [] ∧ segment ≠ ['.'] ∧ segment ≠ ['.', '.'] ∧
      '\\' ∉ segment ∧ '/' ∉ segment) ∧
    (normalizeSegments value = [] →
      normalizeRelativePath now value = ("file_" ++ toString now ++ ".pnt").data) ∧
    (normalizeSegments value ≠ [] →
      splitOnChar '/' (ingestTargetPath now value) =
        [] :: "userlib".data :: normalizeSegments value) := by
  have hsegs : ∀ segment ∈ normalizeSegments value,
      segment ≠ [] ∧ segment ≠ ['.'] ∧ segment ≠ ['.', '.'] ∧
      '\\' ∉ segment ∧ '/' ∉ segment := by
    intro seg hseg
    unfold normalizeSegments at hseg
    obtain ⟨hmem, hcond⟩ := List.mem_filter.mp hseg
    have hcond' := of_decide_eq_true hcond
    obtain ⟨chunk, hchunk, htrim⟩ := List.mem_map.mp hmem
    subst htrim
    refine ⟨List.length_pos.mp hcond'.1, hcond'.2.1, hcond'.2.2, ?_, ?_⟩
    · intro hbs
      have h1 := trimChars_subset hbs
      have h2 := splitOnChar_chars_subset hchunk _ h1
      obtain ⟨d, _, hd⟩ := List.mem_map.mp h2
      by_cases hdb : d = '\\'
      · rw [if_pos hdb] at hd
        exact absurd hd (by decide)
      · rw [if_neg hdb] at hd
        exact hdb hd
    · intro hsl
      exact splitOnChar_no_sep hchunk (trimChars_subset hsl)
  refine ⟨hsegs, ?_, ?_⟩
  · intro h
    simp [normalizeRelativePath, h]
  · intro h
    have hpath : ingestTargetPath now value =
        '/' :: ("userlib".data ++ '/' :: joinSlash (normalizeSegments value)) := by
      simp only [ingestTargetPath, normalizeRelativePath, if_neg h]
      rfl
    rw [hpath]
    have hsplit : splitOnChar '/'
        ('/' :: ("userlib".data ++ '/' :: joinSlash (normalizeSegments value))) =
        [] :: splitOnChar '/'
          ("userlib".data ++ '/' :: joinSlash (normalizeSegments value)) := by
      simp [splitOnChar]
    rw [hsplit, splitOnChar_append_sep _ (by decide),
      splitOnChar_joinSlash h (fun t ht => (hsegs t ht).2.2.2.2)]

/-- Witness for `c10_ingest_path_stays_under_userlib` on the traversal-shaped input
`..\evil/.\name.pnt` and on the all-filtered input `..`. -/
theorem c10_ingest_path_stays_under_userlib_witness :
    normalizeSegments ("..\\evil/.\\name.pnt".data) = ["evil".data, "name.pnt".data] ∧
    splitOnChar '/' (ingestTargetPath 0 ("..\\evil/.\\name.pnt".data)) =
      [[], "userlib".data, "evil".data, "name.pnt".data] ∧
    normalizeRelativePath 7 ("..".data) = ("file_" ++ toString 7 ++ ".pnt").data := by
  refine ⟨by decide, ?_, ?_⟩
  · have h := (c10_ingest_path_stays_under_userlib 0 ("..\\evil/.\\name.pnt".data)).2.2
      (by decide)
    rw [h]
    decide
  · exact (c10_ingest_path_stays_under_userlib 7 ("..".data)).2.1 (by decide)
